import Mathlib

/-! # pish: a verification development

A shallow embedding of the command execution engine of the `pish` shell
(`pish.c`, `pish_history.c`) and theorems about its tokenizer, history store,
dispatcher and read-eval loop.

Conventions of the embedding.

* A byte is a `Char`; a C string is the list of its bytes before the
  terminating NUL, and `NULL` is `none`.
* `struct pish_arg` is `pish_arg`; the array bound `MAX_ARGC` comes from the
  header `pish.h` and is a parameter of every definition that uses it.
* The operating system is an `Env` of oracles, one per library call whose
  result the program branches on, and a `World` holding everything the
  program can change or observe.
* A C function with effects returns an `Outcome`: it returns, it terminates
  the process through `exit`, or it runs into undefined behaviour (a write
  past the end of a fixed buffer, a NULL string argument, signed overflow).
* Only the shell process is followed. A child made by `fork` appears through
  what it does to the things it shares with the shell: the files, the two
  output descriptors and the file offset of the input. A program run by
  `execvp` is taken to end, and `getpwuid` is taken to succeed.
* The stdio streams are buffered. The standard output collects its bytes in
  `out_buf` until the library or `fflush` writes them to the descriptor; the
  input stream reads ahead into `in_buf`; the stream of the history log hands
  its bytes to the file at `fclose`. The standard error stream is unbuffered.
  The streams on the history log are private to one call of `add_history` or
  `print_history`.
* A loop of the program is a recursion on a counter that bounds its
  iterations. For the loops of `parse_command` and `print_history` a lemma
  (`parse_loop_fuel`, `print_loop_fuel`) shows that the counter never cuts the
  loop short. The loop of `pish` need not end, since a program run can move
  the offset of the input back: it yields `none` when the counter runs out,
  and the theorem about it gives the result for every counter large enough.

The definitions come first: the program, then the vocabulary of the
statements (what the specification says, the worlds the functions leave,
concrete environments for the examples). The theorems follow.
-/

namespace Pish

/-! ## Strings -/

abbrev Str := List Char

/-- The C string held by a buffer: the bytes before the first NUL. -/
def cstr (buf : Str) : Str := buf.takeWhile (fun c => decide (c ≠ Char.ofNat 0))

/-- Membership of a byte in a delimiter set, as a boolean test. -/
def is_delim (delim : Str) (c : Char) : Bool := decide (c ∈ delim)

/-- The delimiter set handed to `strtok` by `parse_command`: `" \t\n"`. -/
def WS : Str := [' ', '\t', '\n']

/-- One call of the C library's `strtok` on the text starting at the scan
position `s`: skip leading delimiters; with nothing left the result is NULL;
otherwise the token runs up to the next delimiter, which is overwritten by a
NUL, and the saved position is the byte after it (or the end of the text).
The result is the token and the saved position for the next call. -/
def strtok (s : Str) (delim : Str) : Option Str × Str :=
  match s.dropWhile (is_delim delim) with
  | [] => (none, [])
  | c :: s1 =>
    (some ((c :: s1).takeWhile (fun x => !is_delim delim x)),
     ((c :: s1).dropWhile (fun x => !is_delim delim x)).drop 1)

/-! ## The tokenizer (`pish.c`) -/

/-- The `struct pish_arg` of `pish.h`: `argc` and the array `argv` of
`MAX_ARGC` string pointers. -/
structure pish_arg where
  argc : Nat
  argv : List (Option Str)
deriving DecidableEq, Repr

/-- The `while` loop of `parse_command`. `tok` is the pending result of the
last `strtok` call and `save` its saved position. The loop runs at most
`MAX_ARGC - 1` times; the first argument counts the iterations still allowed
and is started at `MAX_ARGC`, so it reaches zero only when the loop guard is
false already (`parse_loop_fuel`). -/
def parse_loop (MAX_ARGC : Nat) : Nat → Option Str → Str → pish_arg → pish_arg
  | 0, _, _, arg => arg
  | fuel + 1, tok, save, arg =>
    match tok with
    | none => arg
    | some t =>
      if arg.argc < MAX_ARGC - 1 then
        let argv := arg.argv.set arg.argc (some t)
        let next := strtok save WS
        parse_loop MAX_ARGC fuel next.1 next.2 ⟨arg.argc + 1, argv⟩
      else arg

/-- The function `parse_command`: clear the struct, then tokenize the C string
in `command` on space, tab and newline. -/
def parse_command (MAX_ARGC : Nat) (command : Str) : pish_arg :=
  let arg : pish_arg := ⟨0, List.replicate MAX_ARGC none⟩
  let first := strtok (cstr command) WS
  parse_loop MAX_ARGC MAX_ARGC first.1 first.2 arg

/-- The tokens of a `pish_arg`: the strings in `argv[0 .. argc-1]`. -/
def pish_arg.tokens (arg : pish_arg) : List Str :=
  (arg.argv.take arg.argc).filterMap id

/-- The tokenizer as the specification words it: split the line at every
space, tab and newline and keep the non-empty pieces, which are the maximal
runs of other characters, in order. -/
def spec_tokens (line : Str) : List Str :=
  (line.splitOnP (is_delim WS)).filter (fun t => decide (t ≠ []))

/-! ## The operating system -/

/-- The library calls of the shell that a claim needs to see attempted. -/
inductive Event where
  | fopen (path mode : Str)
  | chdir (path : Str)
  | fork
  | execvp (file : Str) (argv : List Str)
  | wait
deriving DecidableEq, Repr

/-- Everything the shell can change or observe.

* `pish_history_path`, `script_mode`: its two static variables.
* `fs`: the files, by the path string handed to `fopen`.
* `cwd`: the working directory.
* `input`, `offset`, `seekable`: the bytes behind the descriptor of the input
  stream `fp`, the file offset of that descriptor, which every child shares,
  and whether the descriptor can seek (a regular file can, a terminal or a
  pipe cannot).
* `in_buf`: the bytes the shell's input stream has read ahead of its position.
* `out`, `out_buf`: the bytes that reached the standard output descriptor and
  the bytes still in the shell's buffer of that stream.
* `err`: the bytes written to the standard error descriptor.
* `trace`: the library calls made so far. -/
structure World where
  pish_history_path : Str
  script_mode : Bool
  fs : Str → Option Str
  cwd : Str
  input : Str
  offset : Nat
  seekable : Bool
  in_buf : Str
  out : Str
  out_buf : Str
  err : Str
  trace : List Event

/-- What a program started by `execvp` has done by the time `wait` returns in
the shell: the files it leaves behind, the text it wrote to the two output
descriptors it shares with the shell, and where it leaves the file offset of
the input descriptor. -/
structure Child where
  fs : Str → Option Str
  out : Str
  err : Str
  offset : Nat

/-- The environment: the home directory of the invoking user and, for every
library call whose result depends on the operating system, the answer it gives
in a given world. -/
structure Env where
  /-- The field `getpwuid(getuid())->pw_dir`. -/
  home : Str
  /-- Whether `fopen(path, "a")` succeeds. -/
  fopen_append : World → Str → Bool
  /-- Whether `fopen(path, "r")` succeeds on a file that exists. -/
  fopen_read : World → Str → Bool
  /-- The item count `fwrite` reports when asked to put that many bytes into
  the stream. -/
  fwrite : World → Nat → Nat
  /-- How many of the bytes a stream holds reach the file when `fclose`
  flushes it. -/
  fclose : World → Nat → Nat
  /-- How many bytes a `read` on a descriptor returns at most when a stream
  fills its buffer; 0 for a read error. -/
  read : World → Nat
  /-- How many bytes of its buffer the standard output stream writes to the
  descriptor on its own after a `printf`: none while a large buffer fills,
  all of them for an unbuffered stream. -/
  stdout_write : World → Nat
  /-- The directory `chdir(path)` moves to, or `none` when it returns -1. -/
  chdir : World → Str → Option Str
  /-- Whether `fork()` succeeds. -/
  fork : World → Bool
  /-- What the program run by `execvp(file, argv)` does, or `none` when the
  call returns -1. -/
  execvp : World → Str → List Str → Option Child
  /-- The message `perror` prints for the current `errno`. -/
  strerror : World → Str

/-- The result of running a C function with effects. -/
inductive Outcome (α : Type) where
  /-- The function returned this value. -/
  | ret (v : α) (w : World)
  /-- The function called `exit(status)` in this world. -/
  | exit (status : Nat) (w : World)
  /-- The function ran into undefined behaviour. -/
  | undefined

/-- Sequencing of two effects: the second runs only when the first returned. -/
def Outcome.bind {α β : Type} (o : Outcome α) (f : α → World → Outcome β) : Outcome β :=
  match o with
  | .ret v w => f v w
  | .exit status w => .exit status w
  | .undefined => .undefined

def EXIT_SUCCESS : Nat := 0

def EXIT_FAILURE : Nat := 1

def INT_MAX : Nat := 2147483647

/-- The library call `perror(s)`: `s`, a colon and a space, the message for
`errno` and a newline, on the standard error stream. -/
def perror (env : Env) (s : Str) (w : World) : World :=
  { w with err := w.err ++ s ++ [':', ' '] ++ env.strerror w ++ ['\n'] }

/-- The library call `printf` with this text as its result: the bytes go into
the buffer of the standard output stream, and the stream writes as much of
the buffer to the descriptor as its buffering makes it. -/
def printf (env : Env) (text : Str) (w : World) : World :=
  { w with
    out := w.out ++
      (w.out_buf ++ text).take (env.stdout_write { w with out_buf := w.out_buf ++ text })
    out_buf :=
      (w.out_buf ++ text).drop (env.stdout_write { w with out_buf := w.out_buf ++ text }) }

/-- The library call `fflush(stdout)`. -/
def fflush_stdout (w : World) : World :=
  { w with out := w.out ++ w.out_buf, out_buf := [] }

/-- What `exit` in a child of the shell does to the things the two share. The
child holds a copy of the shell's streams: it writes its copy of the standard
output buffer to the descriptor, and it moves the file offset of a seekable
input back to the position of its copy of the input stream, ahead of which
the shell has read `in_buf`. The shell's own buffers stay as they are. -/
def child_exit (w : World) : World :=
  { w with
    out := w.out ++ w.out_buf
    offset := if w.seekable then w.offset - w.in_buf.length else w.offset }

/-- The bytes read by `fgets` with room for `k` of them from a stream private
to the caller: up to and including the first newline, at most `k`, and the
rest of the stream. -/
def fgets_read : Nat → Str → Str × Str
  | 0, s => ([], s)
  | _ + 1, [] => ([], [])
  | k + 1, c :: s =>
    if c = '\n' then ([c], s)
    else ((c :: (fgets_read k s).1), (fgets_read k s).2)

/-- The library call `fgets(buf, size, fp)` on a stream private to the caller
with these bytes left: NULL at end of file, otherwise the bytes stored in
`buf` and the rest. -/
def fgets (size : Nat) (stream : Str) : Option (Str × Str) :=
  match stream with
  | [] => none
  | _ :: _ => some (fgets_read (size - 1) stream)

/-- One byte from the input stream of the shell: the next byte read ahead, or,
with none left, the first byte of a buffer filled by `read` at the file offset
of the descriptor, which moves past the bytes read. No byte at end of file and
on a read error. -/
def getc (env : Env) (w : World) : Option Char × World :=
  match w.in_buf with
  | c :: rest => (some c, { w with in_buf := rest })
  | [] =>
    match (w.input.drop w.offset).take (env.read w) with
    | [] => (none, w)
    | c :: block =>
      (some c, { w with in_buf := block, offset := w.offset + (block.length + 1) })

/-- The bytes `fgets` reads from the input stream of the shell with room for
`k` of them: up to and including the first newline, at most `k`. -/
def fgets_fp_read (env : Env) : Nat → World → Str × World
  | 0, w => ([], w)
  | k + 1, w =>
    match getc env w with
    | (none, w1) => ([], w1)
    | (some c, w1) =>
      if c = '\n' then ([c], w1)
      else ((c :: (fgets_fp_read env k w1).1), (fgets_fp_read env k w1).2)

/-- The library call `fgets(buf, size, fp)` on the input stream of the shell:
NULL when no byte could be read, otherwise the bytes stored in `buf`. -/
def fgets_fp (env : Env) (size : Nat) (w : World) : Option Str × World :=
  match fgets_fp_read env (size - 1) w with
  | ([], w1) => (none, w1)
  | (c :: line, w1) => (some (c :: line), w1)

/-- The library call `strcat(dst, src)` into a buffer of `cap` bytes: undefined
for a NULL source and when the result and its NUL do not fit. -/
def strcat (cap : Nat) (dst : Str) (src : Option Str) : Option Str :=
  match src with
  | none => none
  | some s => if (dst ++ s).length < cap then some (dst ++ s) else none

/-- The conversion `%d` of `printf` for a non-negative value. -/
def printf_d (n : Nat) : Str := Nat.toDigits 10 n

/-! ## The history store (`pish_history.c`) -/

/-- The function `set_history_path`: `strncpy` of the home directory into the
1024-byte `pish_history_path`, then `strcat` of `"/.pish_history"`. -/
def set_history_path (env : Env) (w : World) : Outcome Unit :=
  match strcat 1024 env.home (some "/.pish_history".toList) with
  | none => .undefined
  | some path => .ret () { w with pish_history_path := path }

/-- The `for` loop of `add_history` from index `i` with `n` iterations to go
(`n = argc - i`): append `argv[i]` to `cmds`, and a space unless it is the
last argument. -/
def join_loop (arg : pish_arg) : Nat → Nat → Str → Option Str
  | 0, _, cmds => some cmds
  | n + 1, i, cmds =>
    match arg.argv.get? i with
    | none => none
    | some tok =>
      match strcat 1024 cmds tok with
      | none => none
      | some cmds1 =>
        if i + 1 < arg.argc then
          match strcat 1024 cmds1 (some [' ']) with
          | none => none
          | some cmds2 => join_loop arg n (i + 1) cmds2
        else join_loop arg n (i + 1) cmds1

/-- The buffer `cmds` of `add_history` when it is written: the joined
arguments and, for a non-empty command, a newline; `none` when building it is
undefined. -/
def history_cmds (arg : pish_arg) : Option Str :=
  match join_loop arg arg.argc 0 [] with
  | none => none
  | some cmds => if arg.argc ≠ 0 then strcat 1024 cmds (some ['\n']) else some cmds

/-- The function `add_history`. `fopen` in append mode creates a missing log.
`fwrite` puts `written` bytes of `cmds` into the stream, and a short count is
reported. `fclose` then flushes the stream: `flushed` of those bytes reach
the end of the log, and the result of `fclose` is dropped. -/
def add_history (env : Env) (arg : pish_arg) (w : World) : Outcome Unit :=
  (if w.pish_history_path = [] then set_history_path env w else .ret () w).bind fun _ (w1 : World) =>
  let w2 := { w1 with trace := w1.trace ++ [Event.fopen w1.pish_history_path ['a']] }
  if env.fopen_append w2 w2.pish_history_path = false then
    .exit EXIT_FAILURE (perror env "open history file".toList w2)
  else
    let old := (w2.fs w2.pish_history_path).getD []
    let w3 := { w2 with fs := Function.update w2.fs w2.pish_history_path (some old) }
    match history_cmds arg with
    | none => .undefined
    | some cmds =>
      let written := min (env.fwrite w3 cmds.length) cmds.length
      let w4 := if written < cmds.length then perror env "write to history file".toList w3 else w3
      let flushed := min (env.fclose w4 written) written
      .ret () { w4 with
        fs := Function.update w4.fs w4.pish_history_path (some (old ++ cmds.take flushed)) }

/-- The `while` loop of `print_history` on the unread bytes of the log, whose
stream is private to the call. A read error makes `fgets` return NULL like the
end of the file. Every `fgets` that succeeds consumes a byte, so a first
argument started at the number of unread bytes reaches zero only at end of
file, where the loop ends (`print_loop_fuel`). -/
def print_loop (env : Env) : Nat → Str → Nat → World → Outcome Unit
  | 0, _, _, w => .ret () w
  | fuel + 1, unread, count, w =>
    match (if env.read w = 0 then none else fgets 1024 unread) with
    | none => .ret () w
    | some (line, rest) =>
      if count = INT_MAX then .undefined
      else
        print_loop env fuel rest (count + 1)
          (printf env (printf_d count ++ [' '] ++ cstr line) w)

/-- The function `print_history`. -/
def print_history (env : Env) (w : World) : Outcome Unit :=
  (if w.pish_history_path = [] then set_history_path env w else .ret () w).bind fun _ (w1 : World) =>
  let w2 := { w1 with trace := w1.trace ++ [Event.fopen w1.pish_history_path ['r']] }
  match w2.fs w2.pish_history_path with
  | none => .exit EXIT_FAILURE (perror env "open history file".toList w2)
  | some content =>
    if env.fopen_read w2 w2.pish_history_path = false then
      .exit EXIT_FAILURE (perror env "open history file".toList w2)
    else print_loop env content.length content 1 w2

/-! ## The dispatcher and the loop (`pish.c`) -/

/-- The function `prompt` (its return value is always 1): unless in script
mode, `printf` of the bytes `e2 96 b6` and two spaces, then `fflush(stdout)`. -/
def prompt (env : Env) (w : World) : World :=
  if w.script_mode then w
  else
    fflush_stdout
      (printf env [Char.ofNat 0xe2, Char.ofNat 0x96, Char.ofNat 0xb6, ' ', ' '] w)

/-- The function `usage_error`: the message on the standard error stream,
then `fflush(stdout)`. -/
def usage_error (w : World) : World :=
  fflush_stdout { w with err := w.err ++ "pish: Usage error\n".toList }

/-- The strings of a NULL-terminated pointer array, `none` when the array
holds no NULL (reading it runs past its end). -/
def null_terminated : List (Option Str) → Option (List Str)
  | [] => none
  | none :: _ => some []
  | some s :: rest =>
    match null_terminated rest with
    | none => none
    | some l => some (s :: l)

/-- The last branch of `run`, the process runner: `fork`; in the child
`execvp(argv[0], argv)` and, when that fails, `perror` and
`exit(EXIT_FAILURE)`, which ends the child only; in the parent
`wait(NULL)`. -/
def run_external (env : Env) (file : Str) (argv : List (Option Str)) (w : World) :
    Outcome Unit :=
  let w1 := { w with trace := w.trace ++ [Event.fork] }
  if env.fork w1 = false then .exit EXIT_FAILURE (perror env "fork".toList w1)
  else
    match null_terminated argv with
    | none => .undefined
    | some args =>
      let w2 := { w1 with trace := w1.trace ++ [Event.execvp file args] }
      let w3 : World :=
        match env.execvp w2 file args with
        | none => child_exit (perror env "pish".toList w2)
        | some child =>
          { w2 with
            fs := child.fs
            out := w2.out ++ child.out
            err := w2.err ++ child.err
            offset := child.offset }
      .ret () { w3 with trace := w3.trace ++ [Event.wait] }

/-- The function `run`. -/
def run (env : Env) (arg : pish_arg) (w : World) : Outcome Unit :=
  match arg.argv.get? 0 with
  | none => .undefined
  | some cmd =>
    match cmd with
    | none => .ret () w
    | some name =>
      if arg.argc = 0 then .ret () w
      else if name = "exit".toList then .exit EXIT_SUCCESS w
      else if name = "cd".toList then
        if arg.argc ≠ 2 then .ret () (usage_error w)
        else
          match (arg.argv.get? 1).join with
          | none => .undefined
          | some dir =>
            let w1 := { w with trace := w.trace ++ [Event.chdir dir] }
            match env.chdir w1 dir with
            | none => .ret () (perror env "cd".toList w1)
            | some target => .ret () { w1 with cwd := target }
      else if name = "history".toList then
        if arg.argc > 1 then .ret () (usage_error w)
        else print_history env w
      else run_external env name arg.argv w

/-- The `while` loop of `pish` on the input stream of the shell. The first
argument bounds the number of iterations; `none` when it runs out. -/
def pish_loop (env : Env) (MAX_ARGC : Nat) : Nat → World → Option (Outcome Nat)
  | 0, _ => none
  | fuel + 1, w =>
    match fgets_fp env 1024 (prompt env w) with
    | (none, w1) => some (.ret 0 w1)
    | (some buf, w1) =>
      match add_history env (parse_command MAX_ARGC buf) w1 with
      | .undefined => some .undefined
      | .exit status w2 => some (.exit status w2)
      | .ret _ w2 =>
        match run env (parse_command MAX_ARGC buf) w2 with
        | .undefined => some .undefined
        | .exit status w3 => some (.exit status w3)
        | .ret _ w3 => pish_loop env MAX_ARGC fuel w3

/-- The function `pish` on the stream `fp`: `none` for a NULL pointer,
otherwise the input stream whose state the world holds. The first argument
bounds the iterations of the loop. -/
def pish (env : Env) (MAX_ARGC : Nat) (fuel : Nat) (fp : Option Unit) (w : World) :
    Option (Outcome Nat) :=
  match fp with
  | none => some (.exit EXIT_FAILURE (perror env "open".toList w))
  | some _ => pish_loop env MAX_ARGC fuel w

/-! ## Auxiliary definitions of the proofs -/

/-- The tokens still to come after a `strtok` call with this result. -/
def pending (r : Option Str × Str) : List Str :=
  match r.1 with
  | none => []
  | some t => t :: spec_tokens r.2

/-- The struct holding these tokens in an array of `M` pointers. -/
def arg_of (M : Nat) (toks : List Str) : pish_arg :=
  ⟨toks.length, toks.map some ++ List.replicate (M - toks.length) none⟩

/-- Tokens joined by single spaces, as the specification words the history
record. -/
def join_tokens : List Str → Str
  | [] => []
  | [t] => t
  | t :: u :: rest => t ++ ' ' :: join_tokens (u :: rest)

/-- The history record of a token list as the specification words it: nothing
for no tokens, otherwise the joined tokens and a newline. -/
def spec_record (toks : List Str) : Str :=
  if toks = [] then [] else join_tokens toks ++ ['\n']

/-- What every token returned by `strtok` on a C string satisfies: it is not
empty and holds neither a delimiter nor a NUL. -/
def good_token (t : Str) : Prop :=
  t ≠ [] ∧ (∀ c ∈ t, is_delim WS c = false) ∧ Char.ofNat 0 ∉ t

/-- The path of the history log in a world: the cached `pish_history_path`,
or the one `set_history_path` is about to store when the cache is empty. -/
def history_path (env : Env) (w : World) : Str :=
  if w.pish_history_path = [] then env.home ++ "/.pish_history".toList
  else w.pish_history_path

/-- The history path is cached already, or the home directory is short
enough for `set_history_path` to build it inside its 1024 bytes. -/
def path_ok (env : Env) (w : World) : Prop :=
  w.pish_history_path ≠ [] ∨ (env.home ++ "/.pish_history".toList).length < 1024

/-- The world in which the history functions call `fopen` with this mode. -/
def at_fopen (env : Env) (w : World) (mode : Str) : World :=
  { w with
    pish_history_path := history_path env w
    trace := w.trace ++ [Event.fopen (history_path env w) mode] }

/-- The world `add_history` leaves when it appends these bytes to the log. -/
def appended (env : Env) (w : World) (bytes : Str) : World :=
  { at_fopen env w ['a'] with
    fs := Function.update w.fs (history_path env w)
      (some ((w.fs (history_path env w)).getD [] ++ bytes)) }

/-- The world an outcome ends in, when there is one. -/
def Outcome.world {α : Type} : Outcome α → Option World
  | .ret _ w => some w
  | .exit _ w => some w
  | .undefined => none

/-- The status the process exited with, when the function called `exit`. -/
def Outcome.exit_status {α : Type} : Outcome α → Option Nat
  | .exit status _ => some status
  | _ => none

/-- The contents of the history log in a world, `none` when it is absent. -/
def log_of (env : Env) (w : World) : Option Str := w.fs (history_path env w)

/-- An environment in which every call succeeds: the home directory is
`/home/u`, `/tmp` is the one directory `chdir` can enter, a `read` returns up
to 4096 bytes, the standard output keeps its bytes until it is flushed, and
programs run, leave the files and the input alone and write nothing. -/
def env_ok : Env :=
  { home := "/home/u".toList
    fopen_append := fun _ _ => true
    fopen_read := fun _ _ => true
    fwrite := fun _ n => n
    fclose := fun _ n => n
    read := fun _ => 4096
    stdout_write := fun _ => 0
    chdir := fun _ p => if p = "/tmp".toList then some "/tmp".toList else none
    fork := fun _ => true
    execvp := fun w _ _ => some ⟨w.fs, [], [], w.offset⟩
    strerror := fun _ => "error".toList }

/-- As `env_ok`, but `fwrite` puts nothing into the stream. -/
def env_short : Env := { env_ok with fwrite := fun _ _ => 0 }

/-- As `env_ok`, but the disk is full: `fwrite` fills the stream's buffer and
reports every byte, and the flush of `fclose` writes none to the file. -/
def env_disk_full : Env := { env_ok with fclose := fun _ _ => 0 }

/-- As `env_ok`, but there is no program `nosuchcmd`: `execvp` fails on it. -/
def env_missing : Env :=
  { env_ok with
    execvp := fun w file _ =>
      if file = "nosuchcmd".toList then none else some ⟨w.fs, [], [], w.offset⟩ }

/-- As `env_ok`, but the history log cannot be opened for appending. -/
def env_locked : Env := { env_ok with fopen_append := fun _ _ => false }

/-- As `env_ok`, but the history log cannot be opened for reading. -/
def env_unreadable : Env := { env_ok with fopen_read := fun _ _ => false }

/-- As `env_ok`, but `fork` fails. -/
def env_no_fork : Env := { env_ok with fork := fun _ => false }

/-- A world at start-up in script mode, with no file at all and an empty
script. -/
def w_fresh : World :=
  { pish_history_path := []
    script_mode := true
    fs := fun _ => none
    cwd := "/".toList
    input := []
    offset := 0
    seekable := true
    in_buf := []
    out := []
    out_buf := []
    err := []
    trace := [] }

/-- As `w_fresh`, with a script of these bytes as the input. -/
def w_script (input : Str) : World := { w_fresh with input := input }

/-- As `w_fresh`, with an empty history log in place. -/
def w_empty_log : World :=
  { w_fresh with fs := fun p => if p = "/home/u/.pish_history".toList then some [] else none }

/-- A run of `add_history` calls, one per command, in order. -/
def add_history_all (env : Env) : List pish_arg → World → Outcome Unit
  | [], w => .ret () w
  | c :: cs, w => (add_history env c w).bind fun _ (w1 : World) => add_history_all env cs w1

/-- The numbered listing of these lines from number `i` on: the decimal
number, one space, the line, a newline. -/
def listing : Nat → List Str → Str
  | _, [] => []
  | i, b :: bs => printf_d i ++ [' '] ++ b ++ ['\n'] ++ listing (i + 1) bs

/-- The bytes of a log holding these lines, a newline after each. -/
def log_lines : List Str → Str
  | [] => []
  | b :: bs => b ++ '\n' :: log_lines bs

/-- A line that `fgets` reads whole into 1024 bytes and `printf` prints
whole: it holds no newline and no NUL and, with its newline, stays below
1024 bytes. -/
def plain_line (b : Str) : Prop :=
  '\n' ∉ b ∧ Char.ofNat 0 ∉ b ∧ b.length + 1 < 1024

/-- A command as `add_history` and `print_history` handle it whole: a result
of `parse_command` with at least one token whose joined line, with its
newline, stays below the 1024 bytes of their buffers. -/
def recordable (MAX_ARGC : Nat) (c : pish_arg) : Prop :=
  (∃ line, c = parse_command MAX_ARGC line) ∧ c.argc ≠ 0 ∧
    (join_tokens c.tokens).length + 1 < 1024

/-- The text the shell has sent to its standard output stream: the bytes at
the descriptor and the bytes in the buffer. -/
def stdout_text (w : World) : Str := w.out ++ w.out_buf

/-- The world `print_history` leaves, with these bytes at the descriptor and
these in the buffer of the standard output. -/
def printed (env : Env) (w : World) (o b : Str) : World :=
  { at_fopen env w ['r'] with out := o, out_buf := b }

/-- The bytes of the input the shell has still to see: those read ahead and
those behind the file offset. -/
def unread (w : World) : Str := w.in_buf ++ w.input.drop w.offset

/-- The world in which `run` calls `chdir` on this path. -/
def at_chdir (w : World) (dir : Str) : World :=
  { w with trace := w.trace ++ [Event.chdir dir] }

/-- The `cd` built-in as the specification words it, on the arguments after
the command name: with exactly one argument try to change to it, and report
the failure if there is one; with any other number report the usage error
and leave the directory alone. -/
def cd_builtin (env : Env) (args : List Str) (w : World) : Outcome Unit :=
  match args with
  | [dir] =>
    match env.chdir (at_chdir w dir) dir with
    | none => .ret () (perror env "cd".toList (at_chdir w dir))
    | some target => .ret () { at_chdir w dir with cwd := target }
  | _ => .ret () (usage_error w)

/-- The world in which `run` calls `fork`. -/
def at_fork (w : World) : World :=
  { w with trace := w.trace ++ [Event.fork] }

/-- The world in which the child calls `execvp` with this argument list. -/
def at_execvp (w : World) (file : Str) (args : List Str) : World :=
  { at_fork w with trace := (at_fork w).trace ++ [Event.execvp file args] }

/-- The world of the shell after `wait` returns: what the program did to the
files, the two output descriptors and the input offset, or, when `execvp`
failed, the child's report and what its `exit` did. -/
def spawned (env : Env) (file : Str) (args : List Str) (w : World) : World :=
  match env.execvp (at_execvp w file args) file args with
  | none =>
    { child_exit (perror env "pish".toList (at_execvp w file args)) with
      trace := w.trace ++ [Event.fork, Event.execvp file args, Event.wait] }
  | some child =>
    { at_execvp w file args with
      fs := child.fs
      out := w.out ++ child.out
      err := w.err ++ child.err
      offset := child.offset
      trace := w.trace ++ [Event.fork, Event.execvp file args, Event.wait] }

/-- The process runner as the specification words it: a failed `fork` ends
the process with failure status; otherwise the child runs the program with
this argument list and the shell waits for it. -/
def process_runner (env : Env) (file : Str) (args : List Str) (w : World) : Outcome Unit :=
  if env.fork (at_fork w) = false then
    .exit EXIT_FAILURE (perror env "fork".toList (at_fork w))
  else .ret () (spawned env file args w)

/-- The lines `pish` reads from an input with these bytes left when every
byte is read once: the results of successive `fgets` calls with a buffer of
1024 bytes. The first argument bounds the number of calls and is started at
the number of bytes. -/
def read_lines : Nat → Str → List Str
  | 0, _ => []
  | fuel + 1, s =>
    match fgets 1024 s with
    | none => []
    | some (buf, rest) => buf :: read_lines fuel rest

/-- The lines of an input with these bytes left, each byte read once. -/
def input_lines (input : Str) : List Str := read_lines input.length input

/-- Whether token 0 of a line is `exit`. -/
def is_exit (MAX_ARGC : Nat) (line : Str) : Bool :=
  decide ((parse_command MAX_ARGC line).tokens.head? = some "exit".toList)

/-- The lines up to and including the first whose token 0 is `exit`, all of
them when there is none. -/
def up_to_exit (MAX_ARGC : Nat) : List Str → List Str
  | [] => []
  | l :: ls => if is_exit MAX_ARGC l then [l] else l :: up_to_exit MAX_ARGC ls

/-- The history records of these lines, one after the other; a line without
tokens has the empty record. -/
def records (MAX_ARGC : Nat) : List Str → Str
  | [] => []
  | l :: ls => spec_record (parse_command MAX_ARGC l).tokens ++ records MAX_ARGC ls

/-- The library calls `run` makes for a command with these tokens when `fork`
succeeds: none for no tokens, for `exit` and for a usage error, `chdir` for
`cd` with one argument, the `fopen` of `print_history` for `history`, and
`fork`, `execvp`, `wait` for any other name. -/
def dispatch_events (P : Str) : List Str → List Event
  | [] => []
  | name :: rest =>
    if name = "exit".toList then []
    else if name = "cd".toList then
      match rest with
      | [dir] => [Event.chdir dir]
      | _ => []
    else if name = "history".toList then
      if rest = [] then [Event.fopen P ['r']] else []
    else [Event.fork, Event.execvp name (name :: rest), Event.wait]

/-- The library calls of the loop for these lines: for each line the `fopen`
of `add_history`, then the calls of `run`. -/
def loop_events (MAX_ARGC : Nat) (P : Str) : List Str → List Event
  | [] => []
  | l :: ls =>
    Event.fopen P ['a'] :: dispatch_events P (parse_command MAX_ARGC l).tokens ++
      loop_events MAX_ARGC P ls

/-- The state that the loop maintains: the path of the log is settled as
`P`, the log holds `log` (nothing when it is absent), the calls made so far
are `tr`, and the bytes of the input still to see are `s`. -/
def tracks (env : Env) (P : Str) (w : World) (log : Str) (tr : List Event) (s : Str) : Prop :=
  path_ok env w ∧ history_path env w = P ∧ (log_of env w).getD [] = log ∧ w.trace = tr ∧
    unread w = s

/-- The environment assumptions on the history log at path `P`: it can be
opened for appending, `fwrite` reports every byte put into the stream, and
`fclose` writes every byte of the stream to the file. -/
def log_env (env : Env) (P : Str) : Prop :=
  (∀ w, env.fopen_append w P = true) ∧ (∀ w n, n ≤ env.fwrite w n) ∧
  (∀ w n, n ≤ env.fclose w n)

/-- The environment assumptions of the loop theorem, for the log at path `P`:
those of `log_env`; the log can be opened for reading; no `read` fails;
`fork` succeeds; a program run leaves the log and the offset of the input as
they were; and `execvp` fails only when the input cannot seek. -/
def loop_env (env : Env) (P : Str) : Prop :=
  log_env env P ∧ (∀ w, env.fopen_read w P = true) ∧ (∀ w, 0 < env.read w) ∧
  (∀ w, env.fork w = true) ∧
  (∀ w file args child, env.execvp w file args = some child →
    child.fs P = w.fs P ∧ child.offset = w.offset) ∧
  (∀ w file args, env.execvp w file args = none → w.seekable = false)

/-! ## The tokenizer: proofs -/

theorem spec_tokens_nil : spec_tokens [] = [] := by
  simp [spec_tokens, List.splitOnP_nil]

theorem spec_tokens_cons_delim (c : Char) (s : Str) (h : is_delim WS c = true) :
    spec_tokens (c :: s) = spec_tokens s := by
  simp [spec_tokens, List.splitOnP_cons, h]

theorem spec_tokens_dropWhile (s : Str) :
    spec_tokens (s.dropWhile (is_delim WS)) = spec_tokens s := by
  induction s with
  | nil => rfl
  | cons c s ih =>
    by_cases h : is_delim WS c = true
    · rw [List.dropWhile_cons_of_pos h, ih, spec_tokens_cons_delim c s h]
    · rw [List.dropWhile_cons_of_neg h]

theorem takeWhile_not_delim (s : Str) :
    ∀ x ∈ s.takeWhile (fun x => !is_delim WS x), ¬ (is_delim WS x = true) := by
  intro x hx
  have := List.mem_takeWhile_imp hx
  simpa using this

theorem spec_tokens_run (c : Char) (s : Str) (h : is_delim WS c = false) :
    spec_tokens (c :: s) =
      (c :: s).takeWhile (fun x => !is_delim WS x) ::
        spec_tokens (((c :: s).dropWhile (fun x => !is_delim WS x)).drop 1) := by
  have hne : (c :: s).takeWhile (fun x => !is_delim WS x) ≠ [] := by
    simp [List.takeWhile_cons, h]
  have hsplit := List.takeWhile_append_dropWhile (fun x => !is_delim WS x) (c :: s)
  generalize htk : (c :: s).takeWhile (fun x => !is_delim WS x) = tk at hne hsplit
  have htk2 : ∀ x ∈ tk, ¬ (is_delim WS x = true) := by
    rw [← htk]; exact takeWhile_not_delim _
  cases hd : (c :: s).dropWhile (fun x => !is_delim WS x) with
  | nil =>
    rw [hd, List.append_nil] at hsplit
    rw [← hsplit]
    simp [spec_tokens, List.splitOnP_eq_single _ _ htk2, hne, List.splitOnP_nil]
  | cons d rest =>
    have hdel : is_delim WS d = true := by
      have := List.head_dropWhile_not (fun x => !is_delim WS x) (c :: s) (by rw [hd]; simp)
      simpa [hd] using this
    rw [hd] at hsplit
    rw [← hsplit]
    simp [spec_tokens, List.splitOnP_first _ _ htk2 d hdel, hne]

theorem strtok_pending (s : Str) : pending (strtok s WS) = spec_tokens s := by
  rw [← spec_tokens_dropWhile s]
  unfold strtok
  cases hs : s.dropWhile (is_delim WS) with
  | nil => simp [pending, spec_tokens_nil]
  | cons c s1 =>
    have hc : is_delim WS c = false := by
      have := List.head_dropWhile_not (is_delim WS) s (by rw [hs]; simp)
      simpa [hs] using this
    simp only [pending]
    rw [spec_tokens_run c s1 hc]

theorem parse_loop_eq (M : Nat) : ∀ (fuel : Nat) (pre : List Str) (r : Option Str × Str),
    M - 1 - pre.length ≤ fuel →
    parse_loop M fuel r.1 r.2 (arg_of M pre) =
      arg_of M (pre ++ (pending r).take (M - 1 - pre.length)) := by
  intro fuel
  induction fuel with
  | zero =>
    intro pre r h
    have h0 : M - 1 - pre.length = 0 := by omega
    simp [parse_loop, h0]
  | succ fuel ih =>
    intro pre r h
    obtain ⟨tok, save⟩ := r
    cases tok with
    | none => simp [parse_loop, pending]
    | some t =>
      by_cases hlt : pre.length < M - 1
      · have hstep : parse_loop M (fuel + 1) (some t) save (arg_of M pre) =
            parse_loop M fuel (strtok save WS).1 (strtok save WS).2 (arg_of M (pre ++ [t])) := by
          have hM : M - pre.length = (M - (pre.length + 1)) + 1 := by omega
          simp only [parse_loop, arg_of, hlt, if_true]
          congr 1
          simp only [List.length_append, List.length_singleton, List.map_append, List.map_cons,
            List.map_nil, pish_arg.mk.injEq, true_and]
          rw [hM, List.replicate_succ]
          rw [List.set_append_right _ _ (by simp)]
          simp
        rw [hstep, ih (pre ++ [t]) (strtok save WS) (by simp; omega), strtok_pending]
        have hk : M - 1 - pre.length = (M - 1 - (pre ++ [t]).length) + 1 := by simp; omega
        rw [hk]
        simp [pending]
      · have h0 : M - 1 - pre.length = 0 := by omega
        simp [parse_loop, arg_of, hlt, h0]

theorem parse_command_eq (M : Nat) (command : Str) :
    parse_command M command = arg_of M ((spec_tokens (cstr command)).take (M - 1)) := by
  have h := parse_loop_eq M M [] (strtok (cstr command) WS) (by simp)
  rw [strtok_pending] at h
  simpa [parse_command, arg_of] using h

/-- Once the fuel covers the free slots, more of it changes nothing. -/
theorem parse_loop_fuel (M fuel : Nat) (pre : List Str) (r : Option Str × Str)
    (h : M - 1 - pre.length ≤ fuel) :
    parse_loop M fuel r.1 r.2 (arg_of M pre) =
      parse_loop M (M - 1 - pre.length) r.1 r.2 (arg_of M pre) := by
  rw [parse_loop_eq M fuel pre r h, parse_loop_eq M _ pre r (le_refl _)]

theorem cstr_of_no_nul (line : Str) (h : Char.ofNat 0 ∉ line) : cstr line = line := by
  unfold cstr
  rw [List.takeWhile_eq_self_iff]
  intro c hc
  have : c ≠ Char.ofNat 0 := fun e => h (e ▸ hc)
  simpa using this

theorem tokens_arg_of (M : Nat) (T : List Str) : (arg_of M T).tokens = T := by
  simp [pish_arg.tokens, arg_of, List.take_append_eq_append_take, List.filterMap_map]

theorem spec_tokens_ne_nil (s : Str) : ∀ t ∈ spec_tokens s, t ≠ [] := by
  intro t ht
  simp only [spec_tokens, List.mem_filter] at ht
  simpa using ht.2

theorem splitOnP_no_delim (p : Char → Bool) (s : Str) :
    ∀ t ∈ s.splitOnP p, ∀ c ∈ t, p c = false := by
  induction s with
  | nil => simp [List.splitOnP_nil]
  | cons a s ih =>
    intro t ht c hc
    rw [List.splitOnP_cons] at ht
    by_cases ha : p a = true
    · simp only [ha, if_true, List.mem_cons] at ht
      rcases ht with rfl | ht
      · simp at hc
      · exact ih t ht c hc
    · simp only [ha] at ht
      cases hsp : s.splitOnP p with
      | nil => simp [hsp, List.modifyHead] at ht
      | cons u us =>
        simp only [hsp, List.modifyHead, List.mem_cons, Bool.false_eq_true, if_false] at ht
        rcases ht with rfl | ht
        · rcases List.mem_cons.mp hc with rfl | hc
          · simpa using ha
          · exact ih u (by simp [hsp]) c hc
        · exact ih t (by simp [hsp, ht]) c hc

theorem spec_tokens_no_delim (s : Str) : ∀ t ∈ spec_tokens s, ∀ c ∈ t, is_delim WS c = false := by
  intro t ht
  simp only [spec_tokens, List.mem_filter] at ht
  exact splitOnP_no_delim _ s t ht.1

theorem not_delim_iff (c : Char) : is_delim WS c = false ↔ c ≠ ' ' ∧ c ≠ '\t' ∧ c ≠ '\n' := by
  simp [is_delim, WS]

theorem splitOnP_append_delim (p : Char → Bool) (d : Char) (hd : p d = true) (b : Str) :
    ∀ a : Str, (a ++ d :: b).splitOnP p = a.splitOnP p ++ b.splitOnP p := by
  intro a
  induction a with
  | nil => simp [List.splitOnP_cons, hd, List.splitOnP_nil]
  | cons x a ih =>
    rw [List.cons_append, List.splitOnP_cons, List.splitOnP_cons, ih]
    by_cases hx : p x = true
    · simp [hx]
    · simp only [hx, Bool.false_eq_true, if_false]
      cases hsp : a.splitOnP p with
      | nil => exact absurd hsp (List.splitOnP_ne_nil p a)
      | cons u us => simp [List.modifyHead]

theorem spec_tokens_append_delim (a b : Str) (d : Char) (hd : d ∈ WS) :
    spec_tokens (a ++ d :: b) = spec_tokens a ++ spec_tokens b := by
  have : is_delim WS d = true := by simpa [is_delim] using hd
  simp [spec_tokens, splitOnP_append_delim _ d this b a]

theorem spec_tokens_pad_left (pad s : Str) (hpad : ∀ c ∈ pad, c ∈ WS) :
    spec_tokens (pad ++ s) = spec_tokens s := by
  induction pad with
  | nil => rfl
  | cons c pad ih =>
    have hc : is_delim WS c = true := by simpa [is_delim] using hpad c (by simp)
    rw [List.cons_append, spec_tokens_cons_delim _ _ hc]
    exact ih (fun x hx => hpad x (List.mem_cons_of_mem _ hx))

theorem spec_tokens_pad_right (pad s : Str) (hpad : ∀ c ∈ pad, c ∈ WS) :
    spec_tokens (s ++ pad) = spec_tokens s := by
  cases pad with
  | nil => simp
  | cons c pad =>
    rw [spec_tokens_append_delim s pad c (hpad c (by simp))]
    have := spec_tokens_pad_left pad [] (fun x hx => hpad x (List.mem_cons_of_mem _ hx))
    rw [List.append_nil] at this
    rw [this, spec_tokens_nil, List.append_nil]

theorem no_nul_of_ws (pad : Str) (hpad : ∀ c ∈ pad, c ∈ WS) : Char.ofNat 0 ∉ pad := by
  intro h
  have := hpad _ h
  revert this
  decide

theorem parse_command_tokens_eq (M : Nat) (line : Str) :
    (parse_command M line).tokens = (spec_tokens (cstr line)).take (M - 1) := by
  rw [parse_command_eq, tokens_arg_of]

/-- C1: on a line without NUL bytes `parse_command` returns, in order, the
maximal runs of bytes other than space, tab and newline, cut off after
`MAX_ARGC - 1` of them; `argc` counts them; no token is empty or holds a
space, tab or newline; whitespace added in front, at the end or next to other
whitespace changes nothing; `"  ls   -la  \n"` gives `ls`, `-la`, and the
empty and the all-whitespace line give no token. -/
theorem parse_command_tokenizes (MAX_ARGC : Nat) (line : Str)
    (hnul : Char.ofNat 0 ∉ line) :
    (parse_command MAX_ARGC line).tokens = (spec_tokens line).take (MAX_ARGC - 1) ∧
    (parse_command MAX_ARGC line).argc = (parse_command MAX_ARGC line).tokens.length ∧
    (∀ t ∈ (parse_command MAX_ARGC line).tokens, t ≠ [] ∧ ' ' ∉ t ∧ '\t' ∉ t ∧ '\n' ∉ t) ∧
    (∀ pad pad' : Str, (∀ c ∈ pad, c ∈ WS) → (∀ c ∈ pad', c ∈ WS) →
      (parse_command MAX_ARGC (pad ++ line ++ pad')).tokens =
        (parse_command MAX_ARGC line).tokens) ∧
    (∀ (a b pad : Str) (c : Char), line = a ++ c :: b → c ∈ WS → (∀ x ∈ pad, x ∈ WS) →
      (parse_command MAX_ARGC (a ++ c :: (pad ++ b))).tokens =
        (parse_command MAX_ARGC line).tokens) ∧
    (3 ≤ MAX_ARGC →
      (parse_command MAX_ARGC "  ls   -la  \n".toList).tokens = ["ls".toList, "-la".toList]) ∧
    (parse_command MAX_ARGC "".toList).tokens = [] ∧
    (parse_command MAX_ARGC "   \t\n".toList).tokens = [] := by
  have hT := parse_command_tokens_eq MAX_ARGC line
  rw [cstr_of_no_nul line hnul] at hT
  refine ⟨hT, ?_, ?_, ?_, ?_, ?_, ?_, ?_⟩
  · rw [parse_command_eq, tokens_arg_of]; rfl
  · intro t ht
    rw [hT] at ht
    have hmem := List.mem_of_mem_take ht
    have hnd := spec_tokens_no_delim line t hmem
    refine ⟨spec_tokens_ne_nil line t hmem, ?_, ?_, ?_⟩ <;>
    · intro hc
      have := hnd _ hc
      revert this
      decide
  · intro pad pad' hpad hpad'
    have hn : Char.ofNat 0 ∉ pad ++ line ++ pad' := by
      simp only [List.mem_append, not_or]
      exact ⟨⟨no_nul_of_ws pad hpad, hnul⟩, no_nul_of_ws pad' hpad'⟩
    rw [parse_command_tokens_eq, cstr_of_no_nul _ hn, hT, spec_tokens_pad_right _ _ hpad',
      spec_tokens_pad_left _ _ hpad]
  · intro a b pad c hline hc hpad
    have hn : Char.ofNat 0 ∉ a ++ c :: (pad ++ b) := by
      rw [hline] at hnul
      simp only [List.mem_append, List.mem_cons, not_or] at hnul ⊢
      exact ⟨hnul.1, hnul.2.1, no_nul_of_ws pad hpad, hnul.2.2⟩
    rw [parse_command_tokens_eq, cstr_of_no_nul _ hn, hT, hline,
      spec_tokens_append_delim _ _ _ hc, spec_tokens_append_delim _ _ _ hc,
      spec_tokens_pad_left _ _ hpad]
  · intro hM
    rw [parse_command_tokens_eq]
    have h1 : spec_tokens (cstr "  ls   -la  \n".toList) = ["ls".toList, "-la".toList] := by
      decide
    rw [h1]
    exact List.take_of_length_le (by simpa using (by omega : 2 ≤ MAX_ARGC - 1))
  · rw [parse_command_tokens_eq]
    have h1 : spec_tokens (cstr "".toList) = [] := by decide
    rw [h1]; simp
  · rw [parse_command_tokens_eq]
    have h1 : spec_tokens (cstr "   \t\n".toList) = [] := by decide
    rw [h1]; simp

/-- C1 at a concrete input: the line `"  ls   -la  \n"` with `MAX_ARGC = 64`. -/
theorem parse_command_tokenizes_witness :
    Char.ofNat 0 ∉ "  ls   -la  \n".toList ∧
    (parse_command 64 "  ls   -la  \n".toList).tokens = ["ls".toList, "-la".toList] :=
  ⟨by decide,
   ((parse_command_tokenizes 64 "  ls   -la  \n".toList (by decide)).2.2.2.2.2.1 (by decide))⟩

theorem arg_of_take_length (M : Nat) (l : List Str) :
    ((l.take (M - 1)).length ≤ M - 1) := by
  simp

theorem null_terminated_arg (T : List Str) (k : Nat) :
    null_terminated (T.map some ++ List.replicate (k + 1) none) = some T := by
  induction T with
  | nil => simp [null_terminated, List.replicate_succ]
  | cons t T ih => simp [null_terminated, ih]

theorem arg_of_invariant (M : Nat) (T : List Str) (hM : 0 < M) (hT : T.length ≤ M - 1) :
    (arg_of M T).argv.length = M ∧ (arg_of M T).argc ≤ M - 1 ∧
    (∀ i, i < (arg_of M T).argc → ∃ t, t ∈ T ∧ (arg_of M T).argv.get? i = some (some t)) ∧
    (∀ i, (arg_of M T).argc ≤ i → i < M → (arg_of M T).argv.get? i = some none) ∧
    null_terminated (arg_of M T).argv = some T := by
  refine ⟨?_, hT, ?_, ?_, ?_⟩
  · simp [arg_of]; omega
  · intro i hi
    simp only [arg_of] at hi
    refine ⟨T.get ⟨i, hi⟩, List.get_mem _ _ _, ?_⟩
    simp [arg_of, List.getElem?_append_left, hi]
  · intro i hi hiM
    simp only [arg_of] at hi
    simp only [arg_of, List.get?_eq_getElem?]
    rw [List.getElem?_append_right (by simpa using hi)]
    simp only [List.length_map]
    rw [List.getElem?_replicate]
    simp; omega
  · have : M - T.length = (M - T.length - 1) + 1 := by omega
    simp only [arg_of]
    rw [this]
    exact null_terminated_arg T _

/-- C10: for every input line and every positive array bound, the result of
`parse_command` has an `argv` of `MAX_ARGC` entries and `argc ≤ MAX_ARGC - 1`;
the entries below `argc` are non-empty tokens, those from `argc` on are NULL,
`argv[argc]` among them, so the array handed to `execvp` is NULL-terminated
and lists the tokens; `argv[0]` is inside the array, and so is `argv[1]`,
a token, when `argc` is 2. -/
theorem parse_command_invariant (MAX_ARGC : Nat) (line : Str) (hM : 0 < MAX_ARGC) :
    (parse_command MAX_ARGC line).argv.length = MAX_ARGC ∧
    (parse_command MAX_ARGC line).argc ≤ MAX_ARGC - 1 ∧
    (∀ i, i < (parse_command MAX_ARGC line).argc →
      ∃ t, t ≠ [] ∧ (parse_command MAX_ARGC line).argv.get? i = some (some t)) ∧
    (∀ i, (parse_command MAX_ARGC line).argc ≤ i → i < MAX_ARGC →
      (parse_command MAX_ARGC line).argv.get? i = some none) ∧
    (parse_command MAX_ARGC line).argv.get? (parse_command MAX_ARGC line).argc = some none ∧
    null_terminated (parse_command MAX_ARGC line).argv =
      some (parse_command MAX_ARGC line).tokens ∧
    (∃ p, (parse_command MAX_ARGC line).argv.get? 0 = some p) ∧
    ((parse_command MAX_ARGC line).argc = 2 →
      ∃ t, (parse_command MAX_ARGC line).argv.get? 1 = some (some t)) := by
  have hlen := arg_of_take_length MAX_ARGC (spec_tokens (cstr line))
  obtain ⟨h1, h2, h3, h4, h5⟩ :=
    arg_of_invariant MAX_ARGC ((spec_tokens (cstr line)).take (MAX_ARGC - 1)) hM hlen
  rw [parse_command_tokens_eq, parse_command_eq]
  refine ⟨h1, h2, ?_, h4, ?_, h5, ?_, ?_⟩
  · intro i hi
    obtain ⟨t, ht, hget⟩ := h3 i hi
    exact ⟨t, spec_tokens_ne_nil _ t (List.mem_of_mem_take ht), hget⟩
  · exact h4 _ (le_refl _) (by omega)
  · by_cases h0 : 0 < (arg_of MAX_ARGC ((spec_tokens (cstr line)).take (MAX_ARGC - 1))).argc
    · obtain ⟨t, _, hget⟩ := h3 0 h0
      exact ⟨_, hget⟩
    · exact ⟨_, h4 0 (by omega) hM⟩
  · intro h2'
    obtain ⟨t, _, hget⟩ := h3 1 (by omega)
    exact ⟨t, hget⟩

/-- C10 at a concrete input: five tokens into an array of four pointers. -/
theorem parse_command_invariant_witness :
    0 < 4 ∧ (parse_command 4 "a b c d e".toList).argv.get?
      (parse_command 4 "a b c d e".toList).argc = some none :=
  ⟨by decide, (parse_command_invariant 4 "a b c d e".toList (by decide)).2.2.2.2.1⟩

/-- C2 (amended): on a line without NUL bytes that holds more than
`MAX_ARGC - 1` tokens, `parse_command` returns `argc = MAX_ARGC - 1` and
exactly the first `MAX_ARGC - 1` tokens of the line, in order; the rest is
dropped. -/
theorem parse_command_truncates (MAX_ARGC : Nat) (line : Str)
    (hnul : Char.ofNat 0 ∉ line) (hmore : MAX_ARGC - 1 < (spec_tokens line).length) :
    (parse_command MAX_ARGC line).argc = MAX_ARGC - 1 ∧
    (parse_command MAX_ARGC line).tokens = (spec_tokens line).take (MAX_ARGC - 1) := by
  have hT := parse_command_tokens_eq MAX_ARGC line
  rw [cstr_of_no_nul line hnul] at hT
  refine ⟨?_, hT⟩
  rw [parse_command_eq, cstr_of_no_nul line hnul]
  simp only [arg_of, List.length_take]
  omega

/-- C2 (amended) at a concrete input: four tokens with `MAX_ARGC = 3`. -/
theorem parse_command_truncates_witness :
    Char.ofNat 0 ∉ "a b c d".toList ∧ 3 - 1 < (spec_tokens "a b c d".toList).length ∧
    (parse_command 3 "a b c d".toList).argc = 3 - 1 ∧
    (parse_command 3 "a b c d".toList).tokens = (spec_tokens "a b c d".toList).take (3 - 1) :=
  ⟨by decide, by decide, parse_command_truncates 3 "a b c d".toList (by decide) (by decide)⟩

/-- C2 as stated fails: with `MAX_ARGC = 3` the line `a b c d` holds four
tokens, more than 3, and `parse_command` returns `argc = 2` with the tokens
`a`, `b`, not `argc = 3` with the first three. -/
theorem parse_command_not_max_argc :
    3 < (spec_tokens "a b c d".toList).length ∧
    (parse_command 3 "a b c d".toList).argc = 2 ∧
    (parse_command 3 "a b c d".toList).tokens = ["a".toList, "b".toList] ∧
    ¬ ((parse_command 3 "a b c d".toList).argc = 3 ∧
       (parse_command 3 "a b c d".toList).tokens = (spec_tokens "a b c d".toList).take 3) := by
  decide

/-! ## The history record: proofs -/

theorem join_tokens_eq_intercalate (T : List Str) : join_tokens T = [' '].intercalate T := by
  induction T with
  | nil => rfl
  | cons t T ih =>
    cases T with
    | nil => simp [join_tokens, List.intercalate]
    | cons u rest =>
      simp only [join_tokens, ih]
      simp [List.intercalate, List.intersperse]

theorem join_loop_step (arg : pish_arg) (n i : Nat) (cmds t : Str)
    (hget : arg.argv.get? i = some (some t)) :
    join_loop arg (n + 1) i cmds =
      if (cmds ++ t).length < 1024 then
        if i + 1 < arg.argc then
          if (cmds ++ t ++ [' ']).length < 1024 then
            join_loop arg n (i + 1) (cmds ++ t ++ [' '])
          else none
        else join_loop arg n (i + 1) (cmds ++ t)
      else none := by
  simp only [join_loop, hget, strcat]
  by_cases h1 : (cmds ++ t).length < 1024
  · simp only [h1, if_true]
    by_cases h2 : i + 1 < arg.argc
    · simp only [h2, if_true]
      by_cases h3 : (cmds ++ t ++ [' ']).length < 1024
      · simp only [h3, if_true]
      · simp only [h3, if_false]
    · simp only [h2, if_false]
  · simp only [h1, if_false]

theorem join_loop_eq (M : Nat) (T : List Str) : ∀ (post pre : List Str) (cmds : Str),
    T = pre ++ post → cmds.length < 1024 →
    join_loop (arg_of M T) post.length pre.length cmds =
      if (cmds ++ join_tokens post).length < 1024 then some (cmds ++ join_tokens post)
      else none := by
  intro post
  induction post with
  | nil => intro pre cmds _ hc; simp [join_loop, join_tokens, hc]
  | cons t post ih =>
    intro pre cmds hT hc
    have hget : (arg_of M T).argv.get? pre.length = some (some t) := by
      simp only [arg_of, hT, List.get?_eq_getElem?, List.map_append, List.map_cons,
        List.append_assoc]
      rw [List.getElem?_append_right (by simp)]
      simp
    have hargc : (arg_of M T).argc = pre.length + (post.length + 1) := by
      simp [arg_of, hT]
    have hT2 : T = (pre ++ [t]) ++ post := by simp [hT]
    have hlen2 : (pre ++ [t]).length = pre.length + 1 := by simp
    rw [List.length_cons, join_loop_step _ _ _ _ t hget, hargc]
    cases post with
    | nil =>
      have hnlt : ¬ (pre.length + 1 < pre.length + (([] : List Str).length + 1)) := by simp
      rw [if_neg hnlt]
      by_cases h1 : (cmds ++ t).length < 1024
      · have := ih (pre ++ [t]) (cmds ++ t) hT2 h1
        rw [hlen2] at this
        rw [if_pos h1, this]
        simp [join_tokens]
      · rw [if_neg h1]
        simp only [join_tokens]
        rw [if_neg h1]
    | cons u rest =>
      have hj : join_tokens (t :: u :: rest) = t ++ ' ' :: join_tokens (u :: rest) := rfl
      have hlt : pre.length + 1 < pre.length + ((u :: rest).length + 1) := by
        simp only [List.length_cons]; omega
      rw [if_pos hlt, hj]
      have happ : cmds ++ (t ++ ' ' :: join_tokens (u :: rest)) =
          cmds ++ t ++ [' '] ++ join_tokens (u :: rest) := by simp
      rw [happ]
      by_cases h1 : (cmds ++ t).length < 1024
      · rw [if_pos h1]
        by_cases h2 : (cmds ++ t ++ [' ']).length < 1024
        · have := ih (pre ++ [t]) (cmds ++ t ++ [' ']) hT2 h2
          rw [hlen2] at this
          rw [if_pos h2, this]
        · have h3 : ¬ (cmds ++ t ++ [' '] ++ join_tokens (u :: rest)).length < 1024 := by
            simp only [List.length_append, List.length_cons, List.length_nil] at h2 ⊢
            omega
          rw [if_neg h2, if_neg h3]
      · have h3 : ¬ (cmds ++ t ++ [' '] ++ join_tokens (u :: rest)).length < 1024 := by
          simp only [List.length_append, List.length_cons] at h1 ⊢
          omega
        rw [if_neg h1, if_neg h3]

theorem history_cmds_arg_of (M : Nat) (T : List Str) :
    history_cmds (arg_of M T) =
      if (spec_record T).length < 1024 then some (spec_record T) else none := by
  have h := join_loop_eq M T T [] [] (by simp) (by simp)
  have hargc : (arg_of M T).argc = T.length := rfl
  simp only [List.length_nil, List.nil_append] at h
  unfold history_cmds
  rw [hargc, h]
  by_cases hT : T = []
  · subst hT; simp [spec_record, join_tokens]
  · have hne : T.length ≠ 0 := by simpa using hT
    by_cases h1 : (join_tokens T).length < 1024
    · simp [h1, hne, spec_record, hT, strcat]
    · have : ¬ (join_tokens T).length + 1 < 1024 := by omega
      simp [h1, spec_record, hT, this]

theorem splitOnP_subset (p : Char → Bool) (s : Str) :
    ∀ t ∈ s.splitOnP p, ∀ c ∈ t, c ∈ s := by
  induction s with
  | nil => simp [List.splitOnP_nil]
  | cons a s ih =>
    intro t ht c hc
    rw [List.splitOnP_cons] at ht
    by_cases ha : p a = true
    · simp only [ha, if_true, List.mem_cons] at ht
      rcases ht with rfl | ht
      · simp at hc
      · exact List.mem_cons_of_mem _ (ih t ht c hc)
    · simp only [ha] at ht
      cases hsp : s.splitOnP p with
      | nil => simp [hsp, List.modifyHead] at ht
      | cons u us =>
        simp only [hsp, List.modifyHead, List.mem_cons, Bool.false_eq_true, if_false] at ht
        rcases ht with rfl | ht
        · rcases List.mem_cons.mp hc with rfl | hc
          · simp
          · exact List.mem_cons_of_mem _ (ih u (by simp [hsp]) c hc)
        · exact List.mem_cons_of_mem _ (ih t (by simp [hsp, ht]) c hc)

theorem cstr_no_nul (buf : Str) : Char.ofNat 0 ∉ cstr buf := by
  intro h
  have := List.mem_takeWhile_imp h
  simp at this

theorem spec_tokens_good (buf : Str) : ∀ t ∈ spec_tokens (cstr buf), good_token t := by
  intro t ht
  refine ⟨spec_tokens_ne_nil _ t ht, spec_tokens_no_delim _ t ht, ?_⟩
  intro h
  simp only [spec_tokens, List.mem_filter] at ht
  exact cstr_no_nul buf (splitOnP_subset _ _ t ht.1 _ h)

theorem parse_command_tokens_good (M : Nat) (buf : Str) :
    ∀ t ∈ (parse_command M buf).tokens, good_token t := by
  intro t ht
  rw [parse_command_tokens_eq] at ht
  exact spec_tokens_good buf t (List.mem_of_mem_take ht)

theorem spec_tokens_token_delim (t rest : Str) (d : Char) (ht : good_token t) (hd : d ∈ WS) :
    spec_tokens (t ++ d :: rest) = t :: spec_tokens rest := by
  rw [spec_tokens_append_delim t rest d hd]
  have h1 : spec_tokens t = [t] := by
    have hnd : ∀ x ∈ t, ¬ (is_delim WS x = true) := by
      intro x hx; simp [ht.2.1 x hx]
    simp [spec_tokens, List.splitOnP_eq_single _ _ hnd, ht.1]
  rw [h1]; rfl

theorem spec_tokens_record : ∀ T : List Str, T ≠ [] → (∀ t ∈ T, good_token t) →
    spec_tokens (join_tokens T ++ ['\n']) = T
  | [], h, _ => absurd rfl h
  | [t], _, hg => by
    have := spec_tokens_token_delim t [] '\n' (hg t (by simp)) (by decide)
    simpa [join_tokens, spec_tokens_nil] using this
  | t :: u :: rest, _, hg => by
    have ih := spec_tokens_record (u :: rest) (by simp)
      (fun x hx => hg x (List.mem_cons_of_mem _ hx))
    have := spec_tokens_token_delim t (join_tokens (u :: rest) ++ ['\n']) ' '
      (hg t (by simp)) (by decide)
    rw [ih] at this
    simpa [join_tokens] using this

theorem join_tokens_no_nul : ∀ T : List Str, (∀ t ∈ T, good_token t) →
    Char.ofNat 0 ∉ join_tokens T
  | [], _ => by simp [join_tokens]
  | [t], hg => by simpa [join_tokens] using (hg t (by simp)).2.2
  | t :: u :: rest, hg => by
    have ih := join_tokens_no_nul (u :: rest) (fun x hx => hg x (List.mem_cons_of_mem _ hx))
    have ht := (hg t (by simp)).2.2
    simp only [join_tokens, List.mem_append, List.mem_cons, not_or]
    exact ⟨ht, by decide, ih⟩

/-- C6: for every input line whose parse has at least one token, the line
made of the tokens joined by single spaces and a newline parses to the same
struct: the same count and the same tokens in the same order; this line is
what `add_history` builds in `cmds` whenever that is defined. -/
theorem history_record_round_trip (MAX_ARGC : Nat) (line : Str)
    (hne : (parse_command MAX_ARGC line).argc ≠ 0) :
    parse_command MAX_ARGC (join_tokens (parse_command MAX_ARGC line).tokens ++ ['\n']) =
      parse_command MAX_ARGC line ∧
    (∀ cmds, history_cmds (parse_command MAX_ARGC line) = some cmds →
      cmds = join_tokens (parse_command MAX_ARGC line).tokens ++ ['\n']) := by
  have hgood := parse_command_tokens_good MAX_ARGC line
  have hT := parse_command_tokens_eq MAX_ARGC line
  have hTne : (parse_command MAX_ARGC line).tokens ≠ [] := by
    intro h
    apply hne
    rw [parse_command_eq] at h ⊢
    rw [tokens_arg_of] at h
    simp [arg_of, h]
  constructor
  · have hnul : Char.ofNat 0 ∉ join_tokens (parse_command MAX_ARGC line).tokens ++ ['\n'] := by
      simp only [List.mem_append, not_or]
      exact ⟨join_tokens_no_nul _ hgood, by decide⟩
    rw [parse_command_eq MAX_ARGC (join_tokens _ ++ _), cstr_of_no_nul _ hnul,
      spec_tokens_record _ hTne hgood, parse_command_eq MAX_ARGC line, tokens_arg_of,
      List.take_take, min_self]
  · intro cmds hc
    rw [parse_command_eq, history_cmds_arg_of] at hc
    rw [hT]
    have hTne2 : (spec_tokens (cstr line)).take (MAX_ARGC - 1) ≠ [] := hT ▸ hTne
    by_cases hfit : (spec_record ((spec_tokens (cstr line)).take (MAX_ARGC - 1))).length < 1024
    · rw [if_pos hfit] at hc
      simp only [spec_record, hTne2, if_false, Option.some.injEq] at hc
      exact hc.symm
    · rw [if_neg hfit] at hc
      cases hc

/-- C6 at a concrete input: the line `"  ls   -la  \n"`. -/
theorem history_record_round_trip_witness :
    (parse_command 64 "  ls   -la  \n".toList).argc ≠ 0 ∧
    parse_command 64 (join_tokens (parse_command 64 "  ls   -la  \n".toList).tokens ++ ['\n']) =
      parse_command 64 "  ls   -la  \n".toList :=
  ⟨by decide, (history_record_round_trip 64 "  ls   -la  \n".toList (by decide)).1⟩


/-! ## The history store: proofs -/

theorem history_path_ne_nil (env : Env) (w : World) : history_path env w ≠ [] := by
  unfold history_path
  split_ifs with h
  · simp
  · exact h

theorem path_init (env : Env) (w : World) (hp : path_ok env w) :
    (if w.pish_history_path = [] then set_history_path env w else Outcome.ret () w) =
      Outcome.ret () { w with pish_history_path := history_path env w } := by
  by_cases h : w.pish_history_path = []
  · have hfit : (env.home ++ "/.pish_history".toList).length < 1024 := by
      rcases hp with hp | hp
      · exact absurd h hp
      · exact hp
    simp only [h, if_true, set_history_path, strcat, hfit, history_path]
  · simp only [h, if_false, history_path]

theorem history_cmds_argc_zero (arg : pish_arg) (h : arg.argc = 0) :
    history_cmds arg = some [] := by
  simp [history_cmds, h, join_loop]

/-- When the log cannot be opened, `add_history` ends the process. -/
theorem add_history_locked (env : Env) (arg : pish_arg) (w : World) (hp : path_ok env w)
    (hopen : env.fopen_append (at_fopen env w ['a']) (history_path env w) = false) :
    add_history env arg w =
      Outcome.exit EXIT_FAILURE
        (perror env "open history file".toList (at_fopen env w ['a'])) := by
  unfold add_history
  rw [path_init env w hp]
  simp only [Outcome.bind, at_fopen] at hopen ⊢
  rw [if_pos hopen]

/-- When the log is open and building `cmds` is undefined, so is the call. -/
theorem add_history_undefined (env : Env) (arg : pish_arg) (w : World) (hp : path_ok env w)
    (hopen : env.fopen_append (at_fopen env w ['a']) (history_path env w) = true)
    (hcmds : history_cmds arg = none) :
    add_history env arg w = Outcome.undefined := by
  unfold add_history
  rw [path_init env w hp]
  simp only [Outcome.bind, at_fopen] at hopen ⊢
  rw [if_neg (by simp [hopen]), hcmds]

/-- When the log is open, the stream takes and the file receives as many
bytes of `cmds` as `fwrite` and `fclose` let through; with all of them
through, the log gains `cmds`. -/
theorem add_history_full (env : Env) (arg : pish_arg) (w : World) (cmds : Str)
    (hp : path_ok env w)
    (hopen : env.fopen_append (at_fopen env w ['a']) (history_path env w) = true)
    (hcmds : history_cmds arg = some cmds)
    (hwrite : ∀ w' n, n ≤ env.fwrite w' n) (hflush : ∀ w' n, n ≤ env.fclose w' n) :
    add_history env arg w = Outcome.ret () (appended env w cmds) := by
  unfold add_history
  rw [path_init env w hp]
  simp only [Outcome.bind, at_fopen] at hopen ⊢
  rw [if_neg (by simp [hopen]), hcmds]
  simp only [min_eq_right (hwrite _ _), lt_irrefl, if_false, min_eq_right (hflush _ _),
    List.take_length, appended, at_fopen, Function.update_idem]

theorem spec_record_fit_cmds (M : Nat) (line : Str)
    (hfit : (spec_record (parse_command M line).tokens).length < 1024) :
    history_cmds (parse_command M line) = some (spec_record (parse_command M line).tokens) := by
  have h := history_cmds_arg_of M ((spec_tokens (cstr line)).take (M - 1))
  rw [← parse_command_eq, ← parse_command_tokens_eq] at h
  rw [h, if_pos hfit]

theorem history_path_appended (env : Env) (w : World) (bytes : Str) :
    history_path env (appended env w bytes) = history_path env w := by
  have h := history_path_ne_nil env w
  simp only [history_path, appended, at_fopen] at h ⊢
  rw [if_neg h]

theorem log_of_appended (env : Env) (w : World) (bytes : Str) :
    log_of env (appended env w bytes) = some ((log_of env w).getD [] ++ bytes) := by
  simp only [log_of, history_path_appended]
  simp [appended, at_fopen]

/-- C3 (amended): for the result of `parse_command` on any line, when the log
can be opened for appending, the joined line with its newline fits the
1024-byte buffer `cmds`, `fwrite` reports every byte put into the stream and
`fclose` writes every byte of the stream to the file, `add_history` returns
and its only change to the files is to append to the log (created when
missing) the tokens joined by single spaces and one newline; for zero tokens
it appends nothing. -/
theorem add_history_appends (env : Env) (MAX_ARGC : Nat) (line : Str) (w : World)
    (hp : path_ok env w)
    (hopen : env.fopen_append (at_fopen env w ['a']) (history_path env w) = true)
    (hfit : (spec_record (parse_command MAX_ARGC line).tokens).length < 1024)
    (hwrite : ∀ w' n, n ≤ env.fwrite w' n) (hflush : ∀ w' n, n ≤ env.fclose w' n) :
    add_history env (parse_command MAX_ARGC line) w =
      Outcome.ret () (appended env w (spec_record (parse_command MAX_ARGC line).tokens)) ∧
    (∀ p, p ≠ history_path env w →
      (appended env w (spec_record (parse_command MAX_ARGC line).tokens)).fs p = w.fs p) ∧
    log_of env (appended env w (spec_record (parse_command MAX_ARGC line).tokens)) =
      some ((log_of env w).getD [] ++ spec_record (parse_command MAX_ARGC line).tokens) ∧
    ((parse_command MAX_ARGC line).argc = 0 →
      spec_record (parse_command MAX_ARGC line).tokens = []) ∧
    ((parse_command MAX_ARGC line).argc ≠ 0 →
      spec_record (parse_command MAX_ARGC line).tokens =
        join_tokens (parse_command MAX_ARGC line).tokens ++ ['\n']) := by
  have hlen : (parse_command MAX_ARGC line).argc = (parse_command MAX_ARGC line).tokens.length := by
    rw [parse_command_eq, tokens_arg_of]; rfl
  refine ⟨add_history_full env _ w _ hp hopen (spec_record_fit_cmds _ _ hfit) hwrite hflush, ?_,
    log_of_appended env w _, ?_, ?_⟩
  · intro p hne
    simp [appended, at_fopen, Function.update_noteq hne]
  · intro h0
    have : (parse_command MAX_ARGC line).tokens = [] := by
      rw [h0] at hlen; exact List.length_eq_zero.mp hlen.symm
    simp [spec_record, this]
  · intro h0
    have : (parse_command MAX_ARGC line).tokens ≠ [] := by
      intro h; rw [h] at hlen; exact h0 hlen
    simp [spec_record, this]

/-- C3 (amended) at a concrete input: recording `echo hi` with no log on disk
leaves a log holding `echo hi` and a newline. -/
theorem add_history_appends_witness :
    add_history env_ok (parse_command 64 "echo hi\n".toList) w_fresh =
      Outcome.ret ()
        (appended env_ok w_fresh (spec_record (parse_command 64 "echo hi\n".toList).tokens)) ∧
    log_of env_ok (appended env_ok w_fresh
        (spec_record (parse_command 64 "echo hi\n".toList).tokens)) =
      some "echo hi\n".toList :=
  ⟨(add_history_appends env_ok 64 "echo hi\n".toList w_fresh (Or.inr (by decide)) rfl
      (by decide) (fun _ _ => le_refl _) (fun _ _ => le_refl _)).1,
   by decide⟩

/-- C3 as stated fails: the log can be opened and the command `echo hi` has
the record `echo hi` and a newline. (1) On a full disk `fwrite` takes every
byte into the stream and the flush of `fclose`, whose result is dropped,
writes none: `add_history` returns, reports nothing, and the log is still
empty. (2) When `fwrite` takes no byte, `add_history` reports it and returns
with the log still empty. -/
theorem add_history_record_lost :
    env_disk_full.fopen_append (at_fopen env_disk_full w_empty_log ['a'])
      (history_path env_disk_full w_empty_log) = true ∧
    log_of env_disk_full w_empty_log = some [] ∧
    history_cmds (parse_command 64 "echo hi\n".toList) = some "echo hi\n".toList ∧
    (add_history env_disk_full (parse_command 64 "echo hi\n".toList) w_empty_log).world.map
      (fun w => w.fs "/home/u/.pish_history".toList) = some (some []) ∧
    (add_history env_disk_full (parse_command 64 "echo hi\n".toList) w_empty_log).world.map
      (fun w => w.err) = some [] ∧
    (add_history env_disk_full (parse_command 64 "echo hi\n".toList) w_empty_log).exit_status =
      none ∧
    env_short.fopen_append (at_fopen env_short w_empty_log ['a'])
      (history_path env_short w_empty_log) = true ∧
    (add_history env_short (parse_command 64 "echo hi\n".toList) w_empty_log).world.map
      (fun w => w.fs "/home/u/.pish_history".toList) = some (some []) ∧
    (add_history env_short (parse_command 64 "echo hi\n".toList) w_empty_log).world.map
      (fun w => w.err) = some "write to history file: error\n".toList := by
  refine ⟨rfl, by decide, by decide, by decide, by decide, by decide, rfl, by decide, by decide⟩

/-- C4 (amended): for a command with zero tokens `add_history` still opens
the log for appending: when that succeeds it returns, having written nothing,
with an existing log unchanged and a missing log created empty; when it fails
the process exits with failure status. -/
theorem add_history_zero_tokens (env : Env) (arg : pish_arg) (w : World)
    (hp : path_ok env w) (h0 : arg.argc = 0) :
    (env.fopen_append (at_fopen env w ['a']) (history_path env w) = true →
      add_history env arg w = Outcome.ret () (appended env w []) ∧
      log_of env (appended env w []) = some ((log_of env w).getD []) ∧
      (appended env w []).trace = w.trace ++ [Event.fopen (history_path env w) ['a']]) ∧
    (env.fopen_append (at_fopen env w ['a']) (history_path env w) = false →
      add_history env arg w =
        Outcome.exit EXIT_FAILURE
          (perror env "open history file".toList (at_fopen env w ['a']))) := by
  constructor
  · intro hopen
    refine ⟨?_, ?_, rfl⟩
    · unfold add_history
      rw [path_init env w hp]
      simp only [Outcome.bind, at_fopen] at hopen ⊢
      rw [if_neg (by simp [hopen]), history_cmds_argc_zero arg h0]
      simp [appended, at_fopen]
    · simpa using log_of_appended env w []
  · intro hopen
    exact add_history_locked env arg w hp hopen

/-- C4 (amended) at a concrete input: an all-whitespace line with no log on disk. -/
theorem add_history_zero_tokens_witness :
    (parse_command 64 "   \t\n".toList).argc = 0 ∧
    add_history env_ok (parse_command 64 "   \t\n".toList) w_fresh =
      Outcome.ret () (appended env_ok w_fresh []) :=
  ⟨by decide,
   ((add_history_zero_tokens env_ok (parse_command 64 "   \t\n".toList) w_fresh
      (Or.inr (by decide)) (by decide)).1 rfl).1⟩

/-- C4 as stated fails: for the zero-token command of an all-whitespace line
and no log on disk, `add_history` calls `fopen` in append mode and leaves an
empty log behind; and when the log cannot be opened it ends the process with
failure status. -/
theorem add_history_zero_tokens_opens :
    (parse_command 64 "   \t\n".toList).argc = 0 ∧
    w_fresh.fs "/home/u/.pish_history".toList = none ∧
    (add_history env_ok (parse_command 64 "   \t\n".toList) w_fresh).world.map
      (fun w => w.fs "/home/u/.pish_history".toList) = some (some []) ∧
    (add_history env_ok (parse_command 64 "   \t\n".toList) w_fresh).world.map
      (fun w => w.trace) = some [Event.fopen "/home/u/.pish_history".toList ['a']] ∧
    (add_history env_locked (parse_command 64 "   \t\n".toList) w_fresh).exit_status =
      some EXIT_FAILURE := by
  refine ⟨by decide, by decide, by decide, by decide, by decide⟩

theorem fgets_read_line : ∀ (body rest : Str) (k : Nat), '\n' ∉ body → body.length < k →
    fgets_read k (body ++ '\n' :: rest) = (body ++ ['\n'], rest)
  | [], rest, k + 1, _, _ => by simp [fgets_read]
  | c :: body, rest, k + 1, hnl, hk => by
    have hc : c ≠ '\n' := fun e => hnl (by simp [e])
    have ih := fgets_read_line body rest k (fun h => hnl (List.mem_cons_of_mem _ h))
      (by simpa using hk)
    simp [fgets_read, hc, ih]

theorem fgets_line (body rest : Str) (h : plain_line body) :
    fgets 1024 (body ++ '\n' :: rest) = some (body ++ ['\n'], rest) := by
  have hr := fgets_read_line body rest 1023 h.1 (by have := h.2.2; omega)
  cases body with
  | nil => simpa [fgets] using hr
  | cons c body => simpa [fgets] using hr

/-- What `printf` does to the world: the text joins what was sent to the
standard output, split in some way between descriptor and buffer. -/
theorem printf_eq (env : Env) (text : Str) (w : World) :
    ∃ o b, printf env text w = { w with out := o, out_buf := b } ∧
      o ++ b = w.out ++ w.out_buf ++ text :=
  ⟨_, _, rfl, by simp [List.append_assoc, List.take_append_drop]⟩

theorem print_loop_lines (env : Env) (hrd : ∀ w, 0 < env.read w) :
    ∀ (bodies : List Str) (fuel k : Nat) (w : World),
    (∀ b ∈ bodies, plain_line b) → (log_lines bodies).length ≤ fuel →
    k + bodies.length ≤ INT_MAX →
    ∃ o b, print_loop env fuel (log_lines bodies) k w =
        Outcome.ret () { w with out := o, out_buf := b } ∧
      o ++ b = w.out ++ w.out_buf ++ listing k bodies
  | [], fuel, k, w, _, _, _ => by
    refine ⟨w.out, w.out_buf, ?_, by simp [listing]⟩
    cases fuel <;> simp [print_loop, log_lines, fgets]
  | b :: bs, 0, k, w, _, hfuel, _ => by
    simp [log_lines] at hfuel
  | b :: bs, fuel + 1, k, w, hb, hfuel, hk => by
    have hpl := hb b (by simp)
    have hk' : k ≠ INT_MAX := by simp only [List.length_cons] at hk; omega
    have hcs : cstr (b ++ ['\n']) = b ++ ['\n'] := by
      apply cstr_of_no_nul
      simp only [List.mem_append, List.mem_singleton, not_or]
      exact ⟨hpl.2.1, by decide⟩
    obtain ⟨o1, b1, hp1, hob1⟩ := printf_eq env (printf_d k ++ [' '] ++ (b ++ ['\n'])) w
    obtain ⟨o, b', ih, hob⟩ := print_loop_lines env hrd bs fuel (k + 1)
      { w with out := o1, out_buf := b1 }
      (fun x hx => hb x (List.mem_cons_of_mem _ hx))
      (by simp only [log_lines, List.length_append, List.length_cons] at hfuel; omega)
      (by simp only [List.length_cons] at hk; omega)
    refine ⟨o, b', ?_, ?_⟩
    · have hr : env.read w ≠ 0 := Nat.pos_iff_ne_zero.mp (hrd w)
      simp only [print_loop, log_lines, if_neg hr, fgets_line b (log_lines bs) hpl, hk',
        if_false, hcs, hp1]
      exact ih
    · rw [hob]
      simp only [] at hob1 ⊢
      rw [hob1]
      simp [listing, List.append_assoc]

theorem history_path_at_fopen (env : Env) (w : World) (mode : Str) :
    history_path env (at_fopen env w mode) = history_path env w := by
  have h := history_path_ne_nil env w
  simp only [history_path, at_fopen] at h ⊢
  rw [if_neg h]

theorem print_history_eq (env : Env) (w : World) (hp : path_ok env w) :
    print_history env w =
      match log_of env w with
      | none =>
        Outcome.exit EXIT_FAILURE (perror env "open history file".toList (at_fopen env w ['r']))
      | some content =>
        if env.fopen_read (at_fopen env w ['r']) (history_path env w) = false then
          Outcome.exit EXIT_FAILURE
            (perror env "open history file".toList (at_fopen env w ['r']))
        else print_loop env content.length content 1 (at_fopen env w ['r']) := by
  unfold print_history
  rw [path_init env w hp]
  simp only [Outcome.bind, at_fopen, log_of]

theorem log_lines_append (a b : List Str) : log_lines (a ++ b) = log_lines a ++ log_lines b := by
  induction a with
  | nil => rfl
  | cons x a ih => simp [log_lines, ih]

theorem join_tokens_no_newline : ∀ T : List Str, (∀ t ∈ T, good_token t) →
    '\n' ∉ join_tokens T
  | [], _ => by simp [join_tokens]
  | [t], hg => by
    intro h
    have := (hg t (by simp)).2.1 _ (by simpa [join_tokens] using h)
    revert this; decide
  | t :: u :: rest, hg => by
    have ih := join_tokens_no_newline (u :: rest) (fun x hx => hg x (List.mem_cons_of_mem _ hx))
    have ht : '\n' ∉ t := by
      intro h
      have := (hg t (by simp)).2.1 _ h
      revert this; decide
    simp only [join_tokens, List.mem_append, List.mem_cons, not_or]
    exact ⟨ht, by decide, ih⟩

theorem recordable_plain (M : Nat) (c : pish_arg) (h : recordable M c) :
    plain_line (join_tokens c.tokens) := by
  obtain ⟨⟨line, rfl⟩, _, hlen⟩ := h
  have hg := parse_command_tokens_good M line
  exact ⟨join_tokens_no_newline _ hg, join_tokens_no_nul _ hg, hlen⟩

theorem recordable_cmds (M : Nat) (c : pish_arg) (h : recordable M c) :
    history_cmds c = some (join_tokens c.tokens ++ ['\n']) := by
  obtain ⟨⟨line, rfl⟩, hne, hlen⟩ := h
  have hT : (parse_command M line).tokens ≠ [] := by
    intro h
    apply hne
    rw [parse_command_eq] at h ⊢
    rw [tokens_arg_of] at h
    simp [arg_of, h]
  have hrec : spec_record (parse_command M line).tokens =
      join_tokens (parse_command M line).tokens ++ ['\n'] := by simp [spec_record, hT]
  rw [← hrec]
  apply spec_record_fit_cmds
  rw [hrec]
  simpa using hlen

theorem path_ok_appended (env : Env) (w : World) (bytes : Str) :
    path_ok env (appended env w bytes) :=
  Or.inl (by simpa [appended, at_fopen] using history_path_ne_nil env w)

theorem add_history_all_lines (env : Env) (M : Nat) (P : Str) (henv : log_env env P) :
    ∀ (cs : List pish_arg) (w : World) (pre : List Str),
    path_ok env w → history_path env w = P → log_of env w = some (log_lines pre) →
    (∀ c ∈ cs, recordable M c) →
    ∃ w1, add_history_all env cs w = Outcome.ret () w1 ∧ path_ok env w1 ∧
      history_path env w1 = P ∧ stdout_text w1 = stdout_text w ∧
      log_of env w1 = some (log_lines (pre ++ cs.map fun c => join_tokens c.tokens))
  | [], w, pre, hp, hP, hlog, _ => ⟨w, rfl, hp, hP, rfl, by simpa using hlog⟩
  | c :: cs, w, pre, hp, hP, hlog, hcs => by
    have hc := hcs c (by simp)
    have hstep := add_history_full env c w _ hp (hP ▸ henv.1 _) (recordable_cmds M c hc)
      henv.2.1 henv.2.2
    have hlog1 : log_of env (appended env w (join_tokens c.tokens ++ ['\n'])) =
        some (log_lines (pre ++ [join_tokens c.tokens])) := by
      rw [log_of_appended, hlog, log_lines_append]
      simp [log_lines]
    obtain ⟨w1, h1, h2, h3, h4, h5⟩ := add_history_all_lines env M P henv cs
      (appended env w (join_tokens c.tokens ++ ['\n'])) (pre ++ [join_tokens c.tokens])
      (path_ok_appended env w _) ((history_path_appended env w _).trans hP) hlog1
      (fun x hx => hcs x (List.mem_cons_of_mem _ hx))
    refine ⟨w1, ?_, h2, h3, ?_, ?_⟩
    · simp only [add_history_all, hstep, Outcome.bind, h1]
    · rw [h4]; rfl
    · rw [h5]; simp

theorem history_path_printed (env : Env) (w : World) (o b : Str) :
    history_path env (printed env w o b) = history_path env w :=
  history_path_at_fopen env w ['r']

theorem log_of_printed (env : Env) (w : World) (o b : Str) :
    log_of env (printed env w o b) = log_of env w := by
  simp only [log_of, history_path_printed]
  rfl

theorem path_ok_printed (env : Env) (w : World) (o b : Str) :
    path_ok env (printed env w o b) :=
  Or.inl (by simpa [printed, at_fopen] using history_path_ne_nil env w)

theorem print_history_printed (env : Env) (w : World) (bodies : List Str)
    (hp : path_ok env w) (hrd : ∀ w, 0 < env.read w)
    (hread : env.fopen_read (at_fopen env w ['r']) (history_path env w) = true)
    (hlog : log_of env w = some (log_lines bodies))
    (hplain : ∀ b ∈ bodies, plain_line b) (hN : bodies.length < INT_MAX) :
    ∃ o b, print_history env w = Outcome.ret () (printed env w o b) ∧
      stdout_text (printed env w o b) = stdout_text w ++ listing 1 bodies := by
  rw [print_history_eq env w hp, hlog]
  simp only [hread, Bool.true_eq_false, if_false]
  obtain ⟨o, b, h1, h2⟩ := print_loop_lines env hrd bodies _ 1 (at_fopen env w ['r']) hplain
    (le_refl _) (by omega)
  exact ⟨o, b, h1, h2⟩

/-- C5 (amended): start from an empty history log and call `add_history` on
N non-empty results of `parse_command`, each joined line with its newline
below 1024 bytes, with N below `INT_MAX`, in an environment where the log can
be opened for appending and for reading, `fwrite` reports every byte put into
the stream, `fclose` writes every byte of the stream to the file and no
`read` of the log fails. Then all calls return, and every following
`print_history` returns having sent to the standard output exactly the N
lines `i`, a space, the tokens of the i-th command joined by single spaces, a
newline, for i from 1 in insertion order; a second call sends the same again
and neither changes the log. -/
theorem print_history_lists (env : Env) (MAX_ARGC : Nat) (cs : List pish_arg) (w : World)
    (hp : path_ok env w)
    (hlogenv : log_env env (history_path env w))
    (hread : ∀ w', env.fopen_read w' (history_path env w) = true)
    (hrd : ∀ w', 0 < env.read w')
    (hempty : log_of env w = some [])
    (hcs : ∀ c ∈ cs, recordable MAX_ARGC c)
    (hN : cs.length < INT_MAX) :
    ∃ w1 w2 w3, add_history_all env cs w = Outcome.ret () w1 ∧
      print_history env w1 = Outcome.ret () w2 ∧
      stdout_text w2 = stdout_text w1 ++ listing 1 (cs.map fun c => join_tokens c.tokens) ∧
      log_of env w2 = log_of env w1 ∧
      print_history env w2 = Outcome.ret () w3 ∧
      stdout_text w3 = stdout_text w2 ++ listing 1 (cs.map fun c => join_tokens c.tokens) ∧
      log_of env w3 = log_of env w1 := by
  obtain ⟨w1, h1, hp1, hP1, _, hlog1⟩ :=
    add_history_all_lines env MAX_ARGC (history_path env w) hlogenv cs w [] hp rfl
      (by simpa [log_lines] using hempty) hcs
  rw [List.nil_append] at hlog1
  have hplain : ∀ b ∈ cs.map (fun c => join_tokens c.tokens), plain_line b := by
    intro b hb
    obtain ⟨c, hc, rfl⟩ := List.mem_map.mp hb
    exact recordable_plain MAX_ARGC c (hcs c hc)
  have hlen : (cs.map fun c => join_tokens c.tokens).length < INT_MAX := by simpa using hN
  obtain ⟨o1, b1, hprint1, hout1⟩ :=
    print_history_printed env w1 _ hp1 hrd (hP1 ▸ hread _) hlog1 hplain hlen
  have hP2 := history_path_printed env w1 o1 b1
  have hlog2 := log_of_printed env w1 o1 b1
  obtain ⟨o2, b2, hprint2, hout2⟩ := print_history_printed env _ _ (path_ok_printed env w1 o1 b1)
    hrd (by rw [hP2, hP1]; exact hread _) (hlog2.trans hlog1) hplain hlen
  exact ⟨w1, _, _, h1, hprint1, hout1, hlog2, hprint2, hout2,
    (log_of_printed env _ _ _).trans hlog2⟩

/-- C5 (amended) at a concrete input: recording `echo hi` on an empty log and
replaying twice sends `1 echo hi` each time. -/
theorem print_history_lists_witness :
    listing 1 ([parse_command 64 "echo hi\n".toList].map fun c => join_tokens c.tokens) =
      "1 echo hi\n".toList ∧
    ∃ w1 w2 w3,
      add_history_all env_ok [parse_command 64 "echo hi\n".toList] w_empty_log =
        Outcome.ret () w1 ∧
      print_history env_ok w1 = Outcome.ret () w2 ∧
      stdout_text w2 = stdout_text w1 ++
        listing 1 ([parse_command 64 "echo hi\n".toList].map fun c => join_tokens c.tokens) ∧
      log_of env_ok w2 = log_of env_ok w1 ∧
      print_history env_ok w2 = Outcome.ret () w3 ∧
      stdout_text w3 = stdout_text w2 ++
        listing 1 ([parse_command 64 "echo hi\n".toList].map fun c => join_tokens c.tokens) ∧
      log_of env_ok w3 = log_of env_ok w1 :=
  ⟨by decide,
   print_history_lists env_ok 64 [parse_command 64 "echo hi\n".toList] w_empty_log
    (Or.inr (by decide)) ⟨fun _ => rfl, fun _ _ => le_refl _, fun _ _ => le_refl _⟩
    (fun _ => rfl) (fun _ => (by decide : 0 < 4096)) (by decide)
    (by
      intro c hc
      rw [List.mem_singleton] at hc
      subst hc
      exact ⟨⟨_, rfl⟩, by decide, by decide⟩)
    (by decide)⟩

/-- C5 as stated fails: from an empty log, after `add_history` has recorded
`echo hi`, (1) with a log that cannot be opened for reading `print_history`
sends nothing to the standard output and ends the process with failure
status; (2) on a full disk, where the flush of `fclose` writes nothing and
its result is dropped, the record is lost without a report and
`print_history` returns having sent no line; (3) the same when `fwrite`
takes no byte. None sends the line `1 echo hi`. -/
theorem print_history_not_listing :
    log_of env_unreadable w_empty_log = some [] ∧
    ((add_history env_unreadable (parse_command 64 "echo hi\n".toList) w_empty_log).bind
      fun _ w1 => print_history env_unreadable w1).exit_status = some EXIT_FAILURE ∧
    (((add_history env_unreadable (parse_command 64 "echo hi\n".toList) w_empty_log).bind
      fun _ w1 => print_history env_unreadable w1).world.map stdout_text) = some [] ∧
    (((add_history env_disk_full (parse_command 64 "echo hi\n".toList) w_empty_log).bind
      fun _ w1 => print_history env_disk_full w1).world.map stdout_text) = some [] ∧
    ((add_history env_disk_full (parse_command 64 "echo hi\n".toList) w_empty_log).bind
      fun _ w1 => print_history env_disk_full w1).exit_status = none ∧
    (((add_history env_disk_full (parse_command 64 "echo hi\n".toList) w_empty_log).bind
      fun _ w1 => print_history env_disk_full w1).world.map fun w => w.err) = some [] ∧
    (((add_history env_short (parse_command 64 "echo hi\n".toList) w_empty_log).bind
      fun _ w1 => print_history env_short w1).world.map stdout_text) = some [] ∧
    ((add_history env_short (parse_command 64 "echo hi\n".toList) w_empty_log).bind
      fun _ w1 => print_history env_short w1).exit_status = none := by
  refine ⟨by decide, by decide, by decide, by decide, by decide, by decide, by decide,
    by decide⟩

/-! ## The dispatcher: proofs -/

theorem arg_of_argv_zero (M : Nat) (name : Str) (rest : List Str) :
    (arg_of M (name :: rest)).argv.get? 0 = some (some name) := by
  simp [arg_of]

theorem arg_of_argv_one (M : Nat) (name dir : Str) :
    (arg_of M [name, dir]).argv.get? 1 = some (some dir) := by
  simp [arg_of]

theorem run_external_tokens (env : Env) (M : Nat) (file : Str) (T : List Str) (w : World)
    (hlen : T.length < M) :
    run_external env file (arg_of M T).argv w = process_runner env file T w := by
  have hM : M - T.length = (M - T.length - 1) + 1 := by omega
  have hnt : null_terminated (arg_of M T).argv = some T := by
    simp only [arg_of]
    rw [hM]
    exact null_terminated_arg T _
  unfold run_external process_runner
  rw [hnt]
  by_cases hf : env.fork (at_fork w) = false
  · simp only [at_fork] at hf
    simp only [hf, if_true, at_fork]
  · simp only [at_fork] at hf
    simp only [hf, if_false, spawned, at_execvp, at_fork]
    cases h : env.execvp
      { w with trace := w.trace ++ [Event.fork] ++ [Event.execvp file T] } file T <;>
    simp [perror, child_exit]

theorem run_tokens (env : Env) (M : Nat) (name : Str) (rest : List Str) (w : World)
    (hlen : (name :: rest).length < M) :
    run env (arg_of M (name :: rest)) w =
      if name = "exit".toList then Outcome.exit EXIT_SUCCESS w
      else if name = "cd".toList then cd_builtin env rest w
      else if name = "history".toList then
        (if rest = [] then print_history env w else Outcome.ret () (usage_error w))
      else process_runner env name (name :: rest) w := by
  have hargc : (arg_of M (name :: rest)).argc = rest.length + 1 := by simp [arg_of]
  unfold run
  rw [arg_of_argv_zero]
  simp only [hargc, Nat.succ_ne_zero, if_false]
  by_cases h1 : name = "exit".toList
  · simp only [h1, if_true]
  · simp only [h1, if_false]
    by_cases h2 : name = "cd".toList
    · simp only [h2, if_true]
      match rest with
      | [] => simp [cd_builtin]
      | [dir] =>
        have := arg_of_argv_one M "cd".toList dir
        simp only [List.length_singleton, Nat.reduceAdd, ne_eq, not_true_eq_false, if_false,
          this, Option.join, Option.bind, id, cd_builtin, at_chdir]
      | a :: b :: rest => simp [cd_builtin]
    · simp only [h2, if_false]
      by_cases h3 : name = "history".toList
      · simp only [h3, if_true]
        cases rest with
        | nil => simp
        | cons a rest => simp
      · simp only [h3, if_false]
        exact run_external_tokens env M name (name :: rest) w hlen

theorem parse_command_arg_of_tokens (M : Nat) (line : Str) :
    parse_command M line = arg_of M (parse_command M line).tokens := by
  rw [parse_command_tokens_eq, parse_command_eq]

theorem parse_command_tokens_lt (M : Nat) (line : Str)
    (h : (parse_command M line).tokens ≠ []) : (parse_command M line).tokens.length < M := by
  rw [parse_command_tokens_eq] at h ⊢
  have h1 : ((spec_tokens (cstr line)).take (M - 1)).length ≤ M - 1 := by simp
  have h2 : 0 < ((spec_tokens (cstr line)).take (M - 1)).length := List.length_pos.mpr h
  omega

theorem parse_command_head (M : Nat) (line name : Str)
    (h : (parse_command M line).argv.get? 0 = some (some name)) :
    ∃ rest, (parse_command M line).tokens = name :: rest := by
  rw [parse_command_arg_of_tokens] at h
  cases hT : (parse_command M line).tokens with
  | nil =>
    rw [hT] at h
    cases M with
    | zero => simp [arg_of] at h
    | succ M => simp [arg_of, List.replicate_succ] at h
  | cons t rest =>
    rw [hT, arg_of_argv_zero] at h
    simp only [Option.some.injEq] at h
    exact ⟨rest, by rw [h]⟩

theorem run_parse_tokens (env : Env) (M : Nat) (line name : Str) (rest : List Str) (w : World)
    (hT : (parse_command M line).tokens = name :: rest) :
    run env (parse_command M line) w =
      if name = "exit".toList then Outcome.exit EXIT_SUCCESS w
      else if name = "cd".toList then cd_builtin env rest w
      else if name = "history".toList then
        (if rest = [] then print_history env w else Outcome.ret () (usage_error w))
      else process_runner env name (name :: rest) w := by
  have hlt := parse_command_tokens_lt M line (by rw [hT]; simp)
  rw [parse_command_arg_of_tokens M line, hT]
  rw [hT] at hlt
  exact run_tokens env M name rest w hlt

theorem run_parse_empty (env : Env) (M : Nat) (line : Str) (w : World) (hM : 0 < M)
    (hT : (parse_command M line).tokens = []) :
    run env (parse_command M line) w = Outcome.ret () w := by
  rw [parse_command_arg_of_tokens M line, hT]
  obtain ⟨k, rfl⟩ : ∃ k, M = k + 1 := ⟨M - 1, by omega⟩
  simp [run, arg_of, List.replicate_succ]

theorem parse_command_argc (M : Nat) (line : Str) :
    (parse_command M line).argc = (parse_command M line).tokens.length := by
  rw [parse_command_eq, tokens_arg_of]; rfl

/-- C7: for every result of `parse_command` whose token 0 is `cd`: with a
number of tokens other than 2, `run` reports the usage error and returns,
without calling `chdir` and with the working directory as it was; with 2
tokens it calls `chdir` on the argument, and when that succeeds it returns
with the working directory at the target, and when that fails it reports the
error with `perror` and returns with the working directory as it was. -/
theorem run_cd (env : Env) (MAX_ARGC : Nat) (line : Str) (w : World)
    (hcd : (parse_command MAX_ARGC line).argv.get? 0 = some (some "cd".toList)) :
    ((parse_command MAX_ARGC line).argc ≠ 2 →
      run env (parse_command MAX_ARGC line) w = Outcome.ret () (usage_error w) ∧
      (usage_error w).cwd = w.cwd ∧ (usage_error w).trace = w.trace ∧
      (usage_error w).err = w.err ++ "pish: Usage error\n".toList) ∧
    ((parse_command MAX_ARGC line).argc = 2 →
      ∃ dir, (parse_command MAX_ARGC line).tokens = ["cd".toList, dir] ∧
        (∀ target, env.chdir (at_chdir w dir) dir = some target →
          run env (parse_command MAX_ARGC line) w =
            Outcome.ret () { at_chdir w dir with cwd := target }) ∧
        (env.chdir (at_chdir w dir) dir = none →
          run env (parse_command MAX_ARGC line) w =
            Outcome.ret () (perror env "cd".toList (at_chdir w dir)) ∧
          (perror env "cd".toList (at_chdir w dir)).cwd = w.cwd ∧
          (perror env "cd".toList (at_chdir w dir)).err =
            w.err ++ "cd".toList ++ [':', ' '] ++ env.strerror (at_chdir w dir) ++ ['\n'])) := by
  obtain ⟨rest, hT⟩ := parse_command_head MAX_ARGC line _ hcd
  have hrun := run_parse_tokens env MAX_ARGC line _ rest w hT
  have hne : "cd".toList ≠ "exit".toList := by decide
  rw [if_neg hne, if_pos rfl] at hrun
  have hargc := parse_command_argc MAX_ARGC line
  rw [hT] at hargc
  constructor
  · intro h2
    refine ⟨?_, rfl, rfl, rfl⟩
    rw [hrun]
    match rest, hargc with
    | [], _ => rfl
    | [dir], hargc => exact absurd hargc h2
    | a :: b :: rest, _ => rfl
  · intro h2
    match rest, hargc, hT, hrun with
    | [], hargc, _, _ => rw [h2] at hargc; simp at hargc
    | a :: b :: rest, hargc, _, _ => rw [h2] at hargc; simp at hargc
    | [dir], _, hT, hrun =>
      refine ⟨dir, hT, ?_, ?_⟩
      · intro target ht
        rw [hrun]
        simp only [cd_builtin, ht]
      · intro ht
        refine ⟨?_, rfl, rfl⟩
        rw [hrun]
        simp only [cd_builtin, ht]

/-- C7 at a concrete input: the line `cd /tmp`. -/
theorem run_cd_witness :
    (parse_command 64 "cd /tmp\n".toList).argv.get? 0 = some (some "cd".toList) ∧
    ∃ dir, (parse_command 64 "cd /tmp\n".toList).tokens = ["cd".toList, dir] ∧
      (∀ target, env_ok.chdir (at_chdir w_fresh dir) dir = some target →
        run env_ok (parse_command 64 "cd /tmp\n".toList) w_fresh =
          Outcome.ret () { at_chdir w_fresh dir with cwd := target }) ∧
      (env_ok.chdir (at_chdir w_fresh dir) dir = none →
        run env_ok (parse_command 64 "cd /tmp\n".toList) w_fresh =
          Outcome.ret () (perror env_ok "cd".toList (at_chdir w_fresh dir)) ∧
        (perror env_ok "cd".toList (at_chdir w_fresh dir)).cwd = w_fresh.cwd ∧
        (perror env_ok "cd".toList (at_chdir w_fresh dir)).err =
          w_fresh.err ++ "cd".toList ++ [':', ' '] ++ env_ok.strerror (at_chdir w_fresh dir) ++
            ['\n']) :=
  ⟨by decide, (run_cd env_ok 64 "cd /tmp\n".toList w_fresh (by decide)).2 (by decide)⟩

theorem run_noop (env : Env) (arg : pish_arg) (w : World) (harr : arg.argv ≠ [])
    (h : arg.argc = 0 ∨ arg.argv.get? 0 = some none) :
    run env arg w = Outcome.ret () w := by
  unfold run
  cases hargv : arg.argv with
  | nil => exact absurd hargv harr
  | cons p rest =>
    cases p with
    | none => simp
    | some name =>
      rcases h with h | h
      · simp [h]
      · simp [hargv] at h

theorem spawned_cwd (env : Env) (file : Str) (args : List Str) (w : World) :
    (spawned env file args w).cwd = w.cwd := by
  unfold spawned
  cases env.execvp (at_execvp w file args) file args <;> rfl

theorem spawned_trace (env : Env) (file : Str) (args : List Str) (w : World) :
    (spawned env file args w).trace =
      w.trace ++ [Event.fork, Event.execvp file args, Event.wait] := by
  unfold spawned
  cases env.execvp (at_execvp w file args) file args <;> rfl

/-- C9: `run` acts on token 0 by exact, case-sensitive comparison. For any
struct with a non-empty array, zero tokens or a NULL token 0 is a no-op. For
the result of `parse_command` on any line: `exit` with any arguments ends the
process with success status; `cd` is the directory built-in; `history` alone
calls `print_history`, and with arguments it writes `pish: Usage error` to
the standard error, sends nothing to the standard output and returns; every
other name, `Exit`, `CD` and `cdx` among them, goes to
the process runner with the name as the program and the NULL-terminated
`argv`, which lists all tokens, as its arguments, and the shell's working
directory stays and the calls it makes are `fork`, `execvp` and `wait`
only. -/
theorem run_dispatch (env : Env) (MAX_ARGC : Nat) (line : Str) (w : World)
    (hM : 0 < MAX_ARGC) :
    (∀ arg : pish_arg, arg.argv ≠ [] → (arg.argc = 0 ∨ arg.argv.get? 0 = some none) →
      run env arg w = Outcome.ret () w) ∧
    ((parse_command MAX_ARGC line).tokens = [] →
      run env (parse_command MAX_ARGC line) w = Outcome.ret () w) ∧
    (∀ rest, (parse_command MAX_ARGC line).tokens = "exit".toList :: rest →
      run env (parse_command MAX_ARGC line) w = Outcome.exit EXIT_SUCCESS w) ∧
    (∀ rest, (parse_command MAX_ARGC line).tokens = "cd".toList :: rest →
      run env (parse_command MAX_ARGC line) w = cd_builtin env rest w ∧
      (rest.length ≠ 1 → cd_builtin env rest w = Outcome.ret () (usage_error w) ∧
        (usage_error w).err = w.err ++ "pish: Usage error\n".toList)) ∧
    ((parse_command MAX_ARGC line).tokens = ["history".toList] →
      run env (parse_command MAX_ARGC line) w = print_history env w) ∧
    (∀ a rest, (parse_command MAX_ARGC line).tokens = "history".toList :: a :: rest →
      run env (parse_command MAX_ARGC line) w = Outcome.ret () (usage_error w) ∧
      (usage_error w).err = w.err ++ "pish: Usage error\n".toList ∧
      stdout_text (usage_error w) = stdout_text w ∧ (usage_error w).trace = w.trace ∧
      (usage_error w).fs = w.fs ∧ (usage_error w).cwd = w.cwd) ∧
    (∀ name rest, (parse_command MAX_ARGC line).tokens = name :: rest →
      name ≠ "exit".toList → name ≠ "cd".toList → name ≠ "history".toList →
      null_terminated (parse_command MAX_ARGC line).argv = some (name :: rest) ∧
      run env (parse_command MAX_ARGC line) w = process_runner env name (name :: rest) w ∧
      (∀ w1, process_runner env name (name :: rest) w = Outcome.ret () w1 →
        w1.cwd = w.cwd ∧
        w1.trace = w.trace ++ [Event.fork, Event.execvp name (name :: rest), Event.wait]) ∧
      (∀ status w1, process_runner env name (name :: rest) w = Outcome.exit status w1 →
        status = EXIT_FAILURE ∧ w1.cwd = w.cwd ∧ w1.out = w.out ∧
        w1.trace = w.trace ++ [Event.fork] ∧
        w1.err = w.err ++ "fork".toList ++ [':', ' '] ++ env.strerror (at_fork w) ++ ['\n'])) ∧
    (∀ name ∈ ["Exit".toList, "CD".toList, "cdx".toList],
      name ≠ [] ∧ name ≠ "exit".toList ∧ name ≠ "cd".toList ∧ name ≠ "history".toList) := by
  refine ⟨fun arg harr h => run_noop env arg w harr h,
    fun hT => run_parse_empty env MAX_ARGC line w hM hT, ?_, ?_, ?_, ?_, ?_, by decide⟩
  · intro rest hT
    rw [run_parse_tokens env MAX_ARGC line _ rest w hT, if_pos rfl]
  · intro rest hT
    have hne : "cd".toList ≠ "exit".toList := by decide
    refine ⟨by rw [run_parse_tokens env MAX_ARGC line _ rest w hT, if_neg hne, if_pos rfl], ?_⟩
    intro hlen
    match rest, hlen with
    | [], _ => exact ⟨rfl, rfl⟩
    | [dir], hlen => exact absurd rfl hlen
    | a :: b :: rest, _ => exact ⟨rfl, rfl⟩
  · intro hT
    have h1 : "history".toList ≠ "exit".toList := by decide
    have h2 : "history".toList ≠ "cd".toList := by decide
    rw [run_parse_tokens env MAX_ARGC line _ [] w hT, if_neg h1, if_neg h2, if_pos rfl,
      if_pos rfl]
  · intro a rest hT
    have h1 : "history".toList ≠ "exit".toList := by decide
    have h2 : "history".toList ≠ "cd".toList := by decide
    refine ⟨?_, rfl, by simp [stdout_text, usage_error, fflush_stdout], rfl, rfl, rfl⟩
    rw [run_parse_tokens env MAX_ARGC line _ (a :: rest) w hT, if_neg h1, if_neg h2, if_pos rfl,
      if_neg (by simp)]
  · intro name rest hT h1 h2 h3
    have hlt := parse_command_tokens_lt MAX_ARGC line (by rw [hT]; simp)
    refine ⟨?_, ?_, ?_, ?_⟩
    · have hinv := arg_of_invariant MAX_ARGC (parse_command MAX_ARGC line).tokens hM (by omega)
      rw [← parse_command_arg_of_tokens] at hinv
      rw [hinv.2.2.2.2, hT]
    · rw [run_parse_tokens env MAX_ARGC line _ rest w hT, if_neg h1, if_neg h2, if_neg h3]
    · intro w1 hw1
      unfold process_runner at hw1
      by_cases hf : env.fork (at_fork w) = false
      · rw [if_pos hf] at hw1; cases hw1
      · rw [if_neg hf] at hw1
        cases hw1
        exact ⟨spawned_cwd env _ _ w, spawned_trace env _ _ w⟩
    · intro status w1 hw1
      unfold process_runner at hw1
      by_cases hf : env.fork (at_fork w) = false
      · rw [if_pos hf] at hw1
        cases hw1
        exact ⟨rfl, rfl, rfl, rfl, rfl⟩
      · rw [if_neg hf] at hw1; cases hw1

/-- C9 at a concrete input: the line `exit 3`. -/
theorem run_dispatch_witness :
    0 < 64 ∧
    run env_ok (parse_command 64 "exit 3\n".toList) w_fresh = Outcome.exit EXIT_SUCCESS w_fresh :=
  ⟨by decide,
   (run_dispatch env_ok 64 "exit 3\n".toList w_fresh (by decide)).2.2.1 ["3".toList]
     (by decide)⟩

/-! ## The input stream: proofs -/

theorem drop_take_length (k : Nat) (t : Str) : t.drop (t.take k).length = t.drop k := by
  by_cases h : k ≤ t.length
  · rw [List.length_take, min_eq_left h]
  · have h1 : t.length ≤ k := by omega
    rw [List.length_take, min_eq_right h1, List.drop_length, List.drop_eq_nil_of_le h1]

/-- With no byte left to see `getc` yields none; otherwise it yields the
first of them and consumes it, and changes the read-ahead buffer and the
file offset only. -/
theorem getc_unread (env : Env) (w : World) (hrd : 0 < env.read w) :
    (unread w = [] → getc env w = (none, w)) ∧
    (∀ c rest, unread w = c :: rest →
      ∃ b o, getc env w = (some c, { w with in_buf := b, offset := o }) ∧
        unread { w with in_buf := b, offset := o } = rest) := by
  unfold unread getc
  cases hb : w.in_buf with
  | cons c r =>
    refine ⟨fun h => by simp at h, ?_⟩
    intro c' rest h
    simp only [List.cons_append, List.cons.injEq] at h
    obtain ⟨rfl, rfl⟩ := h
    exact ⟨r, w.offset, rfl, rfl⟩
  | nil =>
    simp only [List.nil_append]
    constructor
    · intro h
      simp [h]
    · intro c rest h
      obtain ⟨n, hn⟩ : ∃ n, env.read w = n + 1 := ⟨env.read w - 1, by omega⟩
      refine ⟨rest.take n, w.offset + ((rest.take n).length + 1), ?_, ?_⟩
      · simp [h, hn]
      · have hd : w.input.drop (w.offset + ((rest.take n).length + 1)) =
            rest.drop (rest.take n).length := by
          rw [← List.drop_drop, h]
          simp
        rw [hd, drop_take_length, List.take_append_drop]

theorem fgets_fp_read_eq (env : Env) (hrd : ∀ w, 0 < env.read w) :
    ∀ (k : Nat) (w : World),
    ∃ b o, fgets_fp_read env k w =
        ((fgets_read k (unread w)).1, { w with in_buf := b, offset := o }) ∧
      unread { w with in_buf := b, offset := o } = (fgets_read k (unread w)).2
  | 0, w => ⟨w.in_buf, w.offset, by simp [fgets_fp_read, fgets_read], by simp [fgets_read]⟩
  | k + 1, w => by
    obtain ⟨hnil, hcons⟩ := getc_unread env w (hrd w)
    cases hu : unread w with
    | nil =>
      exact ⟨w.in_buf, w.offset, by simp [fgets_fp_read, hnil hu, fgets_read],
        by simpa [fgets_read] using hu⟩
    | cons c rest =>
      obtain ⟨b, o, hg, hun⟩ := hcons c rest hu
      by_cases hc : c = '\n'
      · exact ⟨b, o, by simp [fgets_fp_read, hg, fgets_read, hc], by simpa [fgets_read, hc] using hun⟩
      · obtain ⟨b2, o2, ih, hun2⟩ := fgets_fp_read_eq env hrd k { w with in_buf := b, offset := o }
        rw [hun] at ih hun2
        refine ⟨b2, o2, ?_, ?_⟩
        · simp only [fgets_fp_read, hg, hc, if_false, ih, fgets_read]
        · simpa [fgets_read, hc] using hun2

theorem fgets_read_ne_nil (k : Nat) (c : Char) (s : Str) :
    (fgets_read (k + 1) (c :: s)).1 ≠ [] := by
  by_cases hc : c = '\n' <;> simp [fgets_read, hc]

/-- On the input stream `fgets` returns what the same call returns on the
bytes still to see, and consumes what it returns; it changes the read-ahead
buffer and the file offset only. -/
theorem fgets_fp_eq (env : Env) (hrd : ∀ w, 0 < env.read w) (w : World) :
    ∃ b o, (fgets 1024 (unread w) = none →
        fgets_fp env 1024 w = (none, { w with in_buf := b, offset := o }) ∧
        unread { w with in_buf := b, offset := o } = []) ∧
      (∀ buf rest, fgets 1024 (unread w) = some (buf, rest) →
        fgets_fp env 1024 w = (some buf, { w with in_buf := b, offset := o }) ∧
        unread { w with in_buf := b, offset := o } = rest) := by
  obtain ⟨b, o, h1, h2⟩ := fgets_fp_read_eq env hrd 1023 w
  refine ⟨b, o, ?_, ?_⟩
  · intro hg
    cases hu : unread w with
    | nil =>
      rw [hu] at h1 h2
      exact ⟨by simp [fgets_fp, h1, fgets_read], by simpa [fgets_read] using h2⟩
    | cons c s => simp [fgets, hu] at hg
  · intro buf rest hg
    cases hu : unread w with
    | nil => simp [fgets, hu] at hg
    | cons c s =>
      rw [hu] at h1 h2 hg
      simp only [fgets, Nat.add_one_sub_one, Option.some.injEq] at hg
      have hne := fgets_read_ne_nil 1022 c s
      rw [hg] at h1 h2 hne
      simp only [] at h1 h2 hne
      refine ⟨?_, h2⟩
      cases hbuf : buf with
      | nil => exact absurd hbuf hne
      | cons x xs =>
        rw [hbuf] at h1
        simp only [fgets_fp, h1]

/-! ## The loop: proofs -/

theorem fgets_read_shorter : ∀ (k : Nat) (s : Str), s ≠ [] →
    (fgets_read (k + 1) s).2.length < s.length
  | _, [], h => absurd rfl h
  | 0, c :: s, _ => by
    by_cases hc : c = '\n' <;> simp [fgets_read, hc]
  | k + 1, c :: s, _ => by
    by_cases hc : c = '\n'
    · simp [fgets_read, hc]
    · cases s with
      | nil => simp [fgets_read, hc]
      | cons d s =>
        have ih := fgets_read_shorter k (d :: s) (by simp)
        simp only [fgets_read, hc, if_false, List.length_cons] at ih ⊢
        omega

theorem fgets_shorter (s buf rest : Str) (h : fgets 1024 s = some (buf, rest)) :
    rest.length < s.length := by
  cases s with
  | nil => simp [fgets] at h
  | cons c s =>
    simp only [fgets, Option.some.injEq] at h
    have := fgets_read_shorter 1022 (c :: s) (by simp)
    have h2 : (fgets_read (1024 - 1) (c :: s)).2 = rest := by rw [h]
    rw [← h2]
    exact this

/-- Below `INT_MAX` lines `print_loop` returns, whatever the log holds and
whether or not a `read` fails, and changes the standard output only. -/
theorem print_loop_total (env : Env) : ∀ (fuel : Nat) (s : Str) (k : Nat) (w : World),
    s.length ≤ fuel → k + s.length ≤ INT_MAX →
    ∃ o b, print_loop env fuel s k w = Outcome.ret () { w with out := o, out_buf := b }
  | 0, s, k, w, _, _ => ⟨w.out, w.out_buf, by simp [print_loop]⟩
  | fuel + 1, s, k, w, hf, hk => by
    cases hg : (if env.read w = 0 then none else fgets 1024 s) with
    | none => exact ⟨w.out, w.out_buf, by simp only [print_loop, hg]⟩
    | some r =>
      obtain ⟨line, rest⟩ := r
      have hg2 : fgets 1024 s = some (line, rest) := by
        by_cases h0 : env.read w = 0
        · rw [if_pos h0] at hg; cases hg
        · rw [if_neg h0] at hg; exact hg
      have hlt := fgets_shorter s line rest hg2
      have hk' : k ≠ INT_MAX := by omega
      obtain ⟨o1, b1, hp1, _⟩ := printf_eq env (printf_d k ++ [' '] ++ cstr line) w
      obtain ⟨o, b, ht⟩ := print_loop_total env fuel rest (k + 1)
        { w with out := o1, out_buf := b1 } (by omega) (by omega)
      refine ⟨o, b, ?_⟩
      simp only [print_loop, hg, hk', if_false, hp1]
      exact ht

theorem print_history_total (env : Env) (w : World) (content : Str)
    (hp : path_ok env w)
    (hread : env.fopen_read (at_fopen env w ['r']) (history_path env w) = true)
    (hlog : log_of env w = some content) (hN : content.length < INT_MAX) :
    ∃ o b, print_history env w = Outcome.ret () (printed env w o b) := by
  rw [print_history_eq env w hp, hlog]
  simp only [hread, Bool.true_eq_false, if_false]
  obtain ⟨o, b, ht⟩ := print_loop_total env content.length content 1 (at_fopen env w ['r'])
    (le_refl _) (by omega)
  exact ⟨o, b, ht⟩

theorem tracks_congr (env : Env) (P : Str) (w w' : World) (log : Str) (tr tr' : List Event)
    (s : Str) (h : tracks env P w log tr s)
    (hpath : w'.pish_history_path = w.pish_history_path)
    (hfs : w'.fs P = w.fs P) (htr : w'.trace = tr') (hun : unread w' = unread w) :
    tracks env P w' log tr' s := by
  obtain ⟨h1, h2, h3, _, h5⟩ := h
  have hP : history_path env w' = P := by
    rw [← h2]; simp only [history_path, hpath]
  refine ⟨?_, hP, ?_, htr, hun.trans h5⟩
  · simpa only [path_ok, hpath] using h1
  · rw [← h3]
    simp only [log_of, hP, h2, hfs]

theorem tracks_prompt (env : Env) (P : Str) (w : World) (log : Str) (tr : List Event)
    (s : Str) (h : tracks env P w log tr s) : tracks env P (prompt env w) log tr s := by
  unfold prompt
  split_ifs
  · exact h
  · exact tracks_congr env P w _ log tr tr s h rfl rfl h.2.2.2.1 rfl

theorem tracks_appended (env : Env) (P : Str) (w : World) (log bytes : Str) (tr : List Event)
    (s : Str) (h : tracks env P w log tr s) :
    tracks env P (appended env w bytes) (log ++ bytes) (tr ++ [Event.fopen P ['a']]) s := by
  obtain ⟨_, h2, h3, h4, h5⟩ := h
  refine ⟨path_ok_appended env w bytes, (history_path_appended env w bytes).trans h2, ?_, ?_,
    h5⟩
  · rw [log_of_appended, h3]; rfl
  · simp [appended, at_fopen, h2, h4]

theorem add_history_tracks (env : Env) (M : Nat) (P : Str) (line : Str) (w : World)
    (log : Str) (tr : List Event) (s : Str) (henv : loop_env env P)
    (h : tracks env P w log tr s)
    (hfit : (spec_record (parse_command M line).tokens).length < 1024) :
    ∃ w1, add_history env (parse_command M line) w = Outcome.ret () w1 ∧
      tracks env P w1 (log ++ spec_record (parse_command M line).tokens)
        (tr ++ [Event.fopen P ['a']]) s ∧ log_of env w1 ≠ none := by
  refine ⟨_, add_history_full env _ w _ h.1 (h.2.1 ▸ henv.1.1 _)
    (spec_record_fit_cmds M line hfit) henv.1.2.1 henv.1.2.2, tracks_appended env P w log _ tr s h,
    ?_⟩
  rw [log_of_appended]
  simp

theorem cd_builtin_tracks (env : Env) (P : Str) (rest : List Str) (w : World)
    (log : Str) (tr : List Event) (s : Str) (h : tracks env P w log tr s) :
    ∃ w2, cd_builtin env rest w = Outcome.ret () w2 ∧
      tracks env P w2 log (tr ++ dispatch_events P ("cd".toList :: rest)) s ∧
      log_of env w2 = log_of env w := by
  have hne : "cd".toList ≠ "exit".toList := by decide
  have hlog : ∀ w' : World, w'.pish_history_path = w.pish_history_path → w'.fs = w.fs →
      log_of env w' = log_of env w := by
    intro w' h1 h2
    simp only [log_of, history_path, h1, h2]
  match rest with
  | [] =>
    exact ⟨usage_error w, rfl,
      tracks_congr env P w _ log tr _ s h rfl rfl
        (by simp [dispatch_events, usage_error, fflush_stdout, h.2.2.2.1]) rfl,
      hlog _ rfl rfl⟩
  | a :: b :: rest =>
    exact ⟨usage_error w, rfl,
      tracks_congr env P w _ log tr _ s h rfl rfl
        (by simp [dispatch_events, usage_error, fflush_stdout, h.2.2.2.1]) rfl,
      hlog _ rfl rfl⟩
  | [dir] =>
    have hev : dispatch_events P ["cd".toList, dir] = [Event.chdir dir] := by
      simp [dispatch_events, hne]
    rw [hev]
    cases hc : env.chdir (at_chdir w dir) dir with
    | none =>
      exact ⟨perror env "cd".toList (at_chdir w dir), by simp [cd_builtin, hc],
        tracks_congr env P w _ log tr _ s h rfl rfl (by simp [perror, at_chdir, h.2.2.2.1]) rfl,
        hlog _ rfl rfl⟩
    | some target =>
      exact ⟨{ at_chdir w dir with cwd := target }, by simp [cd_builtin, hc],
        tracks_congr env P w _ log tr _ s h rfl rfl (by simp [at_chdir, h.2.2.2.1]) rfl,
        hlog _ rfl rfl⟩

theorem process_runner_tracks (env : Env) (P : Str) (name : Str) (args : List Str) (w : World)
    (log : Str) (tr : List Event) (s : Str) (henv : loop_env env P)
    (h : tracks env P w log tr s) (hex : log_of env w ≠ none) :
    ∃ w2, process_runner env name args w = Outcome.ret () w2 ∧
      tracks env P w2 log (tr ++ [Event.fork, Event.execvp name args, Event.wait]) s ∧
      log_of env w2 ≠ none := by
  have hfork : env.fork (at_fork w) ≠ false := by simp [henv.2.2.2.1]
  have hpath : (spawned env name args w).pish_history_path = w.pish_history_path := by
    unfold spawned
    cases env.execvp (at_execvp w name args) name args <;> rfl
  have hfs : (spawned env name args w).fs P = w.fs P := by
    unfold spawned
    cases hc : env.execvp (at_execvp w name args) name args with
    | none => rfl
    | some child =>
      have hkeep := (henv.2.2.2.2.1 (at_execvp w name args) name args child hc).1
      exact hkeep
  have hun : unread (spawned env name args w) = unread w := by
    unfold spawned
    cases hc : env.execvp (at_execvp w name args) name args with
    | none =>
      have hseek : w.seekable = false := henv.2.2.2.2.2 (at_execvp w name args) name args hc
      simp [unread, child_exit, perror, at_execvp, at_fork, hseek]
    | some child =>
      have hkeep : child.offset = w.offset :=
        (henv.2.2.2.2.1 (at_execvp w name args) name args child hc).2
      simp [unread, at_execvp, at_fork, hkeep]
  have htr := tracks_congr env P w _ log tr _ s h hpath hfs
    ((spawned_trace env name args w).trans (by rw [h.2.2.2.1])) hun
  refine ⟨spawned env name args w, by simp only [process_runner, if_neg hfork], htr, ?_⟩
  have hw : log_of env w = w.fs P := by simp only [log_of, h.2.1]
  have hw2 : log_of env (spawned env name args w) = (spawned env name args w).fs P := by
    simp only [log_of, htr.2.1]
  rw [hw2, hfs, ← hw]
  exact hex

theorem tracks_printed (env : Env) (P : Str) (w : World) (log o b : Str) (tr : List Event)
    (s : Str) (h : tracks env P w log tr s) :
    tracks env P (printed env w o b) log (tr ++ [Event.fopen P ['r']]) s := by
  obtain ⟨_, h2, h3, h4, h5⟩ := h
  refine ⟨path_ok_printed env w o b, (history_path_printed env w o b).trans h2, ?_, ?_, h5⟩
  · rw [log_of_printed, h3]
  · simp [printed, at_fopen, h2, h4]

theorem run_tracks (env : Env) (M : Nat) (P : Str) (line : Str) (w : World)
    (log : Str) (tr : List Event) (s : Str) (hM : 0 < M) (henv : loop_env env P)
    (h : tracks env P w log tr s) (hex : log_of env w ≠ none)
    (hsize : log.length < INT_MAX) :
    (is_exit M line = true →
      run env (parse_command M line) w = Outcome.exit EXIT_SUCCESS w ∧
      dispatch_events P (parse_command M line).tokens = []) ∧
    (is_exit M line = false →
      ∃ w2, run env (parse_command M line) w = Outcome.ret () w2 ∧
        tracks env P w2 log (tr ++ dispatch_events P (parse_command M line).tokens) s ∧
        log_of env w2 ≠ none) := by
  cases hT : (parse_command M line).tokens with
  | nil =>
    have hx : is_exit M line = false := by simp [is_exit, hT]
    refine ⟨fun hc => Bool.noConfusion (hx.symm.trans hc), fun _ => ?_⟩
    exact ⟨w, run_parse_empty env M line w hM hT, by simpa [dispatch_events] using h, hex⟩
  | cons name rest =>
    have hrun := run_parse_tokens env M line name rest w hT
    by_cases h1 : name = "exit".toList
    · have hx : is_exit M line = true := by
        unfold is_exit
        rw [hT]
        simp only [List.head?_cons, Option.some.injEq]
        exact decide_eq_true h1
      refine ⟨fun _ => ⟨by rw [hrun, if_pos h1], by simp only [dispatch_events, if_pos h1]⟩,
        fun hc => Bool.noConfusion (hx.symm.trans hc)⟩
    · have hx : is_exit M line = false := by
        unfold is_exit
        rw [hT]
        simp only [List.head?_cons, Option.some.injEq]
        exact decide_eq_false h1
      refine ⟨fun hc => Bool.noConfusion (hx.symm.trans hc), fun _ => ?_⟩
      rw [if_neg h1] at hrun
      by_cases h2 : name = "cd".toList
      · rw [if_pos h2] at hrun
        obtain ⟨w2, hw2, ht2, hl2⟩ := cd_builtin_tracks env P rest w log tr s h
        exact ⟨w2, hrun.trans hw2, by rw [h2]; exact ht2, by rw [hl2]; exact hex⟩
      · rw [if_neg h2] at hrun
        by_cases h3 : name = "history".toList
        · rw [if_pos h3] at hrun
          by_cases hr : rest = []
          · rw [if_pos hr] at hrun
            obtain ⟨content, hc⟩ := Option.ne_none_iff_exists'.mp hex
            have hlen : content.length < INT_MAX := by
              have := h.2.2.1
              rw [hc] at this
              simp only [Option.getD_some] at this
              rw [this]; exact hsize
            obtain ⟨o, b, ht⟩ := print_history_total env w content h.1
              (h.2.1 ▸ henv.2.1 _) hc hlen
            refine ⟨printed env w o b, hrun.trans ht, ?_, ?_⟩
            · have hev : dispatch_events P (name :: rest) = [Event.fopen P ['r']] := by
                simp only [dispatch_events, if_neg h1, if_neg h2, if_pos h3, if_pos hr]
              rw [hev]
              exact tracks_printed env P w log o b tr s h
            · rw [log_of_printed]; exact hex
          · rw [if_neg hr] at hrun
            refine ⟨usage_error w, hrun, ?_, ?_⟩
            · have hev : dispatch_events P (name :: rest) = [] := by
                simp only [dispatch_events, if_neg h1, if_neg h2, if_pos h3, if_neg hr]
              rw [hev, List.append_nil]
              exact tracks_congr env P w _ log tr tr s h rfl rfl h.2.2.2.1 rfl
            · exact hex
        · rw [if_neg h3] at hrun
          obtain ⟨w2, hw2, ht2, hl2⟩ :=
            process_runner_tracks env P name (name :: rest) w log tr s henv h hex
          refine ⟨w2, hrun.trans hw2, ?_, hl2⟩
          have hev : dispatch_events P (name :: rest) =
              [Event.fork, Event.execvp name (name :: rest), Event.wait] := by
            simp only [dispatch_events, if_neg h1, if_neg h2, if_neg h3]
          rw [hev]
          exact ht2

theorem read_lines_fuel_eq : ∀ (f1 f2 : Nat) (s : Str),
    s.length ≤ f1 → s.length ≤ f2 → read_lines f1 s = read_lines f2 s
  | 0, 0, _, _, _ => rfl
  | 0, f2 + 1, s, h1, _ => by
    have hs : s = [] := List.length_eq_zero.mp (by omega)
    simp [read_lines, hs, fgets]
  | f1 + 1, 0, s, _, h2 => by
    have hs : s = [] := List.length_eq_zero.mp (by omega)
    simp [read_lines, hs, fgets]
  | f1 + 1, f2 + 1, s, h1, h2 => by
    cases hg : fgets 1024 s with
    | none => simp [read_lines, hg]
    | some r =>
      obtain ⟨buf, rest⟩ := r
      have hlt := fgets_shorter s buf rest hg
      simp only [read_lines, hg]
      rw [read_lines_fuel_eq f1 f2 rest (by omega) (by omega)]

/-- Once the fuel covers the unread bytes, more of it changes nothing. -/
theorem print_loop_fuel_eq (env : Env) : ∀ (f1 f2 : Nat) (s : Str) (k : Nat) (w : World),
    s.length ≤ f1 → s.length ≤ f2 → print_loop env f1 s k w = print_loop env f2 s k w
  | 0, 0, _, _, _, _, _ => rfl
  | 0, f2 + 1, s, k, w, h1, _ => by
    have hs : s = [] := List.length_eq_zero.mp (by omega)
    simp [print_loop, hs, fgets]
  | f1 + 1, 0, s, k, w, _, h2 => by
    have hs : s = [] := List.length_eq_zero.mp (by omega)
    simp [print_loop, hs, fgets]
  | f1 + 1, f2 + 1, s, k, w, h1, h2 => by
    cases hg : (if env.read w = 0 then none else fgets 1024 s) with
    | none => simp only [print_loop, hg]
    | some r =>
      obtain ⟨line, rest⟩ := r
      have hg2 : fgets 1024 s = some (line, rest) := by
        by_cases h0 : env.read w = 0
        · rw [if_pos h0] at hg; cases hg
        · rw [if_neg h0] at hg; exact hg
      have hlt := fgets_shorter s line rest hg2
      simp only [print_loop, hg]
      rw [print_loop_fuel_eq env f1 f2 rest (k + 1) _ (by omega) (by omega)]

/-- The counter of `print_loop`, started at the number of unread bytes, never
cuts the loop short: any larger counter gives the same result. -/
theorem print_loop_fuel (env : Env) (fuel : Nat) (s : Str) (k : Nat) (w : World)
    (h : s.length ≤ fuel) :
    print_loop env fuel s k w = print_loop env s.length s k w :=
  print_loop_fuel_eq env fuel s.length s k w h (le_refl _)

/-- A result of the loop of `pish` stays the result with a larger counter. -/
theorem pish_loop_mono (env : Env) (M : Nat) : ∀ (fuel k : Nat) (w : World) (r : Outcome Nat),
    pish_loop env M fuel w = some r → pish_loop env M (fuel + k) w = some r
  | 0, _, _, _, h => by simp [pish_loop] at h
  | fuel + 1, k, w, r, h => by
    have hk : fuel + 1 + k = (fuel + k) + 1 := by omega
    rw [hk]
    simp only [pish_loop] at h ⊢
    cases hg : fgets_fp env 1024 (prompt env w) with
    | mk line w1 =>
      rw [hg] at h
      cases line with
      | none => exact h
      | some buf =>
        simp only [] at h ⊢
        cases ha : add_history env (parse_command M buf) w1 with
        | undefined => rw [ha] at h; exact h
        | exit status w2 => rw [ha] at h; exact h
        | ret v w2 =>
          rw [ha] at h
          simp only [] at h ⊢
          cases hr : run env (parse_command M buf) w2 with
          | undefined => rw [hr] at h; exact h
          | exit status w3 => rw [hr] at h; exact h
          | ret v3 w3 =>
            rw [hr] at h
            exact pish_loop_mono env M fuel k w3 r h

theorem pish_loop_tracks (env : Env) (M : Nat) (P : Str) (hM : 0 < M)
    (henv : loop_env env P) :
    ∀ (fuel : Nat) (s : Str) (w : World) (log : Str) (tr : List Event),
    s.length < fuel → tracks env P w log tr s →
    (∀ l ∈ up_to_exit M (read_lines fuel s),
      (spec_record (parse_command M l).tokens).length < 1024) →
    log.length + (records M (up_to_exit M (read_lines fuel s))).length < INT_MAX →
    ∃ w', pish_loop env M fuel w =
        some (if (read_lines fuel s).any (is_exit M) = true then Outcome.exit EXIT_SUCCESS w'
         else Outcome.ret 0 w') ∧
      (log_of env w').getD [] = log ++ records M (up_to_exit M (read_lines fuel s)) ∧
      w'.trace = tr ++ loop_events M P (up_to_exit M (read_lines fuel s))
  | 0, s, w, log, tr, hf, _, _, _ => absurd hf (Nat.not_lt_zero _)
  | fuel + 1, s, w, log, tr, hf, h, hfit, hsize => by
    have hpr := tracks_prompt env P w log tr s h
    obtain ⟨b, o, hnone, hsome⟩ := fgets_fp_eq env henv.2.2.1 (prompt env w)
    rw [hpr.2.2.2.2] at hnone hsome
    cases hg : fgets 1024 s with
    | none =>
      obtain ⟨hfp, _⟩ := hnone hg
      have ht := tracks_congr env P (prompt env w)
        { prompt env w with in_buf := b, offset := o } log tr tr s hpr rfl rfl hpr.2.2.2.1
      refine ⟨{ prompt env w with in_buf := b, offset := o }, ?_, ?_, ?_⟩
      · simp [pish_loop, hfp, read_lines, hg]
      · have h3 : (log_of env (prompt env w)).getD [] = log := hpr.2.2.1
        have hl : log_of env { prompt env w with in_buf := b, offset := o } =
            log_of env (prompt env w) := rfl
        rw [hl, h3]
        simp [read_lines, hg, up_to_exit, records]
      · have h4 : (prompt env w).trace = tr := hpr.2.2.2.1
        simp [read_lines, hg, up_to_exit, loop_events, h4]
    | some r =>
      obtain ⟨buf, rest⟩ := r
      obtain ⟨hfp, hun⟩ := hsome buf rest hg
      have hlt := fgets_shorter s buf rest hg
      have hlines : read_lines (fuel + 1) s = buf :: read_lines fuel rest := by
        simp [read_lines, hg]
      rw [hlines] at hfit hsize ⊢
      have ht0 : tracks env P { prompt env w with in_buf := b, offset := o } log tr rest :=
        ⟨hpr.1, hpr.2.1, hpr.2.2.1, hpr.2.2.2.1, hun⟩
      by_cases hx : is_exit M buf = true
      · have hup : up_to_exit M (buf :: read_lines fuel rest) = [buf] := by
          simp [up_to_exit, hx]
        rw [hup] at hfit hsize ⊢
        obtain ⟨w1, ha, ht1, hl1⟩ := add_history_tracks env M P buf _ log tr rest henv
          ht0 (hfit buf (by simp))
        have hsz : (log ++ spec_record (parse_command M buf).tokens).length < INT_MAX := by
          simpa [records] using hsize
        obtain ⟨hr, hev⟩ := (run_tracks env M P buf w1 _ _ rest hM henv ht1 hl1 hsz).1 hx
        refine ⟨w1, ?_, ?_, ?_⟩
        · simp only [pish_loop, hfp, ha, hr, List.any_cons, hx, Bool.true_or, if_true]
        · simpa [records] using ht1.2.2.1
        · simpa [loop_events, hev] using ht1.2.2.2.1
      · have hx' : is_exit M buf = false := by simpa using hx
        have hup : up_to_exit M (buf :: read_lines fuel rest) =
            buf :: up_to_exit M (read_lines fuel rest) := by
          simp [up_to_exit, hx']
        rw [hup] at hfit hsize ⊢
        obtain ⟨w1, ha, ht1, hl1⟩ := add_history_tracks env M P buf _ log tr rest henv
          ht0 (hfit buf (by simp))
        have hsz : (log ++ spec_record (parse_command M buf).tokens).length < INT_MAX := by
          simp only [records, List.length_append] at hsize ⊢
          omega
        obtain ⟨w2, hr, ht2, _⟩ :=
          (run_tracks env M P buf w1 _ _ rest hM henv ht1 hl1 hsz).2 hx'
        obtain ⟨w3, hloop, hlog3, htr3⟩ := pish_loop_tracks env M P hM henv fuel rest w2 _ _
          (by omega) ht2 (fun l hl => hfit l (List.mem_cons_of_mem _ hl))
          (by simp only [records, List.length_append] at hsize ⊢; omega)
        refine ⟨w3, ?_, ?_, ?_⟩
        · simp only [pish_loop, hfp, ha, hr, hloop, List.any_cons, hx', Bool.false_or]
        · simpa [records, List.append_assoc] using hlog3
        · simpa [loop_events, List.append_assoc] using htr3

/-- C8 (amended): feed `pish` any input, in an environment where the log can
be opened for appending and reading, `fwrite` takes every byte and `fclose`
writes every buffered byte to the log, no `read` of the input fails, `fork`
succeeds, the programs run leave the log and the input offset alone and
`execvp` fails only when the input cannot seek, with every line's record
below 1024 bytes and the log below `INT_MAX` bytes. Then `pish` ends, for
every iteration bound above the number of unread bytes. Each line read by
`fgets` is tokenized, recorded with `add_history` and then dispatched with
`run`, in input order, built-in or not. The first line whose token 0 is
`exit` ends the process with success status, and end of input makes `pish`
return 0. The final log is the initial log followed by the records of the
lines up to and including that `exit` line, and the library calls made are
those of these lines only. -/
theorem pish_records (env : Env) (MAX_ARGC : Nat) (w : World)
    (hM : 0 < MAX_ARGC) (hp : path_ok env w) (henv : loop_env env (history_path env w))
    (hfit : ∀ l ∈ up_to_exit MAX_ARGC (input_lines (unread w)),
      (spec_record (parse_command MAX_ARGC l).tokens).length < 1024)
    (hsize : ((log_of env w).getD []).length +
      (records MAX_ARGC (up_to_exit MAX_ARGC (input_lines (unread w)))).length < INT_MAX) :
    ∃ w', (∀ fuel, (unread w).length < fuel →
        pish env MAX_ARGC fuel (some ()) w =
          some (if (input_lines (unread w)).any (is_exit MAX_ARGC) = true then
            Outcome.exit EXIT_SUCCESS w'
           else Outcome.ret 0 w')) ∧
      (log_of env w').getD [] =
        (log_of env w).getD [] ++
          records MAX_ARGC (up_to_exit MAX_ARGC (input_lines (unread w))) ∧
      w'.trace = w.trace ++
        loop_events MAX_ARGC (history_path env w)
          (up_to_exit MAX_ARGC (input_lines (unread w))) := by
  have hlines : read_lines ((unread w).length + 1) (unread w) = input_lines (unread w) :=
    read_lines_fuel_eq _ _ _ (Nat.le_succ _) (le_refl _)
  obtain ⟨w', h1, h2, h3⟩ := pish_loop_tracks env MAX_ARGC (history_path env w) hM henv
    ((unread w).length + 1) (unread w) w _ _ (Nat.lt_succ_self _) ⟨hp, rfl, rfl, rfl, rfl⟩
    (by rw [hlines]; exact hfit) (by rw [hlines]; exact hsize)
  rw [hlines] at h1 h2 h3
  refine ⟨w', fun fuel hf => ?_, h2, h3⟩
  obtain ⟨k, hk⟩ : ∃ k, fuel = (unread w).length + 1 + k := ⟨fuel - ((unread w).length + 1), by omega⟩
  rw [hk]
  exact pish_loop_mono env MAX_ARGC _ k w _ h1

/-- C8 (amended) at a concrete script: five lines, the fourth of them `exit 3`. -/
theorem pish_records_witness :
    0 < 64 ∧ input_lines (unread (w_script "ls -l\n\nhistory\nexit 3\nfoo\n".toList)) =
      ["ls -l\n".toList, "\n".toList, "history\n".toList, "exit 3\n".toList, "foo\n".toList] ∧
    records 64 (up_to_exit 64
      (input_lines (unread (w_script "ls -l\n\nhistory\nexit 3\nfoo\n".toList)))) =
      "ls -l\nhistory\nexit 3\n".toList ∧
    ∃ w', (∀ fuel, (unread (w_script "ls -l\n\nhistory\nexit 3\nfoo\n".toList)).length < fuel →
        pish env_ok 64 fuel (some ()) (w_script "ls -l\n\nhistory\nexit 3\nfoo\n".toList) =
          some (if (input_lines (unread (w_script "ls -l\n\nhistory\nexit 3\nfoo\n".toList))).any
              (is_exit 64) = true then
            Outcome.exit EXIT_SUCCESS w'
           else Outcome.ret 0 w')) ∧
      (log_of env_ok w').getD [] =
        (log_of env_ok (w_script "ls -l\n\nhistory\nexit 3\nfoo\n".toList)).getD [] ++
          records 64 (up_to_exit 64
            (input_lines (unread (w_script "ls -l\n\nhistory\nexit 3\nfoo\n".toList)))) ∧
      w'.trace = (w_script "ls -l\n\nhistory\nexit 3\nfoo\n".toList).trace ++
        loop_events 64 (history_path env_ok (w_script "ls -l\n\nhistory\nexit 3\nfoo\n".toList))
          (up_to_exit 64
            (input_lines (unread (w_script "ls -l\n\nhistory\nexit 3\nfoo\n".toList)))) :=
  ⟨by decide, by decide, by decide,
   pish_records env_ok 64 (w_script "ls -l\n\nhistory\nexit 3\nfoo\n".toList) (by decide)
    (Or.inr (by decide))
    ⟨⟨fun _ => rfl, fun _ _ => le_refl _, fun _ _ => le_refl _⟩, fun _ => rfl,
      fun _ => (by decide : 0 < 4096), fun _ => rfl,
      fun _ _ _ _ h => by cases h; exact ⟨rfl, rfl⟩,
      fun _ _ _ h => by cases h⟩
    (by decide) (by decide)⟩

/-- C8 as stated fails: the log can be opened and no program touches it, but
`fork` fails. On the script `ls`, `exit` the loop records `ls`, the failed
`fork` ends the process with failure status, and `exit` is never recorded:
the final log is `ls` alone, not the records of both lines, and the status is
not success. -/
theorem pish_fork_failure :
    input_lines (unread (w_script "ls\nexit\n".toList)) = ["ls\n".toList, "exit\n".toList] ∧
    records 64 (up_to_exit 64 (input_lines (unread (w_script "ls\nexit\n".toList)))) =
      "ls\nexit\n".toList ∧
    (pish env_no_fork 64 8 (some ()) (w_script "ls\nexit\n".toList)).map Outcome.exit_status =
      some (some EXIT_FAILURE) ∧
    (pish env_no_fork 64 8 (some ()) (w_script "ls\nexit\n".toList)).map
      (fun r => r.world.map fun w => w.fs "/home/u/.pish_history".toList) =
        some (some (some "ls\n".toList)) ∧
    (pish env_no_fork 64 8 (some ()) (w_script "ls\nexit\n".toList)).map
      (fun r => r.world.map fun w => w.trace) =
        some (some [Event.fopen "/home/u/.pish_history".toList ['a'], Event.fork]) := by
  refine ⟨by decide, by decide, by decide, by decide, by decide⟩

/-! ## The child of a failed `execvp` -/

/-- The child of a failed `execvp` leaves through `exit`, which seeks the
script back to the first byte the shell has not consumed. On the script
`nosuchcmd`, `echo hi`, read in one block, the shell therefore reads `echo hi`
a second time once its own buffer is empty, and records and runs it twice:
the log ends as `nosuchcmd`, `echo hi`, `echo hi`, and `execvp` is called
three times. -/
theorem pish_rereads_after_failed_exec :
    input_lines (unread (w_script "nosuchcmd\necho hi\n".toList)) =
      ["nosuchcmd\n".toList, "echo hi\n".toList] ∧
    (pish env_missing 64 19 (some ()) (w_script "nosuchcmd\necho hi\n".toList)).map
      (fun r => r.world.map fun w => w.fs "/home/u/.pish_history".toList) =
        some (some (some "nosuchcmd\necho hi\necho hi\n".toList)) ∧
    (pish env_missing 64 19 (some ()) (w_script "nosuchcmd\necho hi\n".toList)).map
      (fun r => r.world.map fun w => w.trace.filter fun e => decide (e ≠ Event.fork ∧
        e ≠ Event.wait ∧ e ≠ Event.fopen "/home/u/.pish_history".toList ['a'])) =
        some (some [Event.execvp "nosuchcmd".toList ["nosuchcmd".toList],
          Event.execvp "echo".toList ["echo".toList, "hi".toList],
          Event.execvp "echo".toList ["echo".toList, "hi".toList]]) := by
  refine ⟨by decide, by decide, by decide⟩

/-- The same child also flushes its copy of the shell's standard output
buffer. In script mode nothing flushes the listing `history` prints, so the
child of the failed `execvp` on the next line sends it, and the shell still
holds it to send again. -/
theorem pish_listing_sent_twice :
    (pish env_missing 64 19 (some ()) (w_script "history\nnosuchcmd\n".toList)).map
      (fun r => r.world.map fun w => (w.out, w.out_buf)) =
        some (some ("1 history\n".toList, "1 history\n".toList)) := by
  decide

/-! ## The fixed buffer of `add_history` -/

/-- When the joined line and its newline do not fit the 1024 bytes of `cmds`,
`add_history` runs past the buffer once the log is open: its behaviour is
undefined. -/
theorem add_history_overflow (env : Env) (M : Nat) (line : Str) (w : World)
    (hp : path_ok env w)
    (hopen : env.fopen_append (at_fopen env w ['a']) (history_path env w) = true)
    (hbig : 1024 ≤ (spec_record (parse_command M line).tokens).length) :
    add_history env (parse_command M line) w = Outcome.undefined := by
  have h := history_cmds_arg_of M ((spec_tokens (cstr line)).take (M - 1))
  rw [← parse_command_eq, ← parse_command_tokens_eq, if_neg (by omega)] at h
  exact add_history_undefined env _ w hp hopen h

theorem spec_record_single (M : Nat) (t : Str) (ht : good_token t) (hM : 2 ≤ M) :
    spec_record (parse_command M t).tokens = t ++ ['\n'] := by
  have hnd : ∀ x ∈ t, ¬ (is_delim WS x = true) := by
    intro x hx; simp [ht.2.1 x hx]
  have hsp : spec_tokens t = [t] := by
    simp [spec_tokens, List.splitOnP_eq_single _ _ hnd, ht.1]
  have htake : List.take (M - 1) [t] = [t] := List.take_of_length_le (by simp; omega)
  rw [parse_command_tokens_eq, cstr_of_no_nul _ ht.2.2, hsp, htake]
  simp [spec_record, join_tokens]

/-- A line of 1023 bytes without whitespace, the longest `fgets` hands to
`parse_command` in `pish`, is such a line: its record takes 1024 bytes and
the terminating NUL a 1025th. -/
theorem add_history_overflow_line (env : Env) (w : World) (hp : path_ok env w)
    (hopen : env.fopen_append (at_fopen env w ['a']) (history_path env w) = true) :
    add_history env (parse_command 64 (List.replicate 1023 'a')) w = Outcome.undefined := by
  have hlen : (List.replicate 1023 'a').length = 1023 := List.length_replicate _ _
  have hgood : good_token (List.replicate 1023 'a') := by
    refine ⟨?_, ?_, ?_⟩
    · intro h
      rw [h] at hlen
      cases hlen
    · intro c hc
      rw [List.eq_of_mem_replicate hc]
      decide
    · intro h
      have := List.eq_of_mem_replicate h
      revert this; decide
  generalize List.replicate 1023 'a' = t at hlen hgood
  apply add_history_overflow env 64 t w hp hopen
  rw [spec_record_single 64 t hgood (by decide), List.length_append, hlen]
  decide

end Pish
